import Mathlib

/-!
# Verification of the openSubTrans subtitle-translation core

Shallow embedding of the Python repository `tamio0800/openSubTrans`:
the SRT codec (`srt_processor.py`), the context store
(`context_manager.py`) and the batch translation engine
(`translator.py`), together with proofs of the specification claims.

Strings are modelled as `List Char`; Python string operations
(`str.strip`, `str.split`, `re.split`, `re.match` on the concrete
patterns used by the code) are embedded as executable functions.
Character classes (`\s`, `\d`) are modelled over their ASCII/BMP
behaviour; the patterns in this code base only ever produce ASCII
digits and whitespace at the decision points the claims depend on.
-/

namespace OpenSubTrans

/-- Python strings, modelled as lists of characters. -/
abbrev Str := List Char

/-- The whitespace characters recognised by Python's `str.strip()` and by
`\\s` in the `re` module (BMP portion), by code point: space, tab, LF, VT,
FF, CR, FS/GS/RS/US, NEL, NBSP, ogham space, the U+2000 range,
line/paragraph separators, narrow NBSP, math space, ideographic space. -/
def pySpace (c : Char) : Bool :=
  c.toNat == 32 || (9 <= c.toNat && c.toNat <= 13) ||
  (28 <= c.toNat && c.toNat <= 31) ||
  c.toNat == 0x85 || c.toNat == 0xa0 || c.toNat == 0x1680 ||
  (0x2000 <= c.toNat && c.toNat <= 0x200a) ||
  c.toNat == 0x2028 || c.toNat == 0x2029 ||
  c.toNat == 0x202f || c.toNat == 0x205f || c.toNat == 0x3000

/-- Python `str.strip()`: drop whitespace from both ends. -/
def pyStrip (s : Str) : Str :=
  ((s.dropWhile pySpace).reverse.dropWhile pySpace).reverse

/-- Python `s.split('\n')`: split at every newline; `"".split('\n') = ['']`. -/
def splitNl (s : Str) : List Str :=
  match s with
  | [] => [[]]
  | c :: rest =>
    let r := splitNl rest
    if c == '\n' then [] :: r
    else
      match r with
      | [] => [[c]]
      | h :: t => (c :: h) :: t

/-- Python `sep.join(parts)`. -/
def pyJoin (sep : Str) : List Str → Str
  | [] => []
  | [x] => x
  | x :: y :: rest => x ++ sep ++ pyJoin sep (y :: rest)

/-- ASCII digit test (`\d` over the ASCII range). -/
def isDig (c : Char) : Bool := 48 ≤ c.toNat && c.toNat ≤ 57

/-- Digit tail of a Python integer literal: digits with single
underscores allowed between digits. -/
def intGo : Str → Nat → Option Nat
  | [], acc => some acc
  | c :: rest, acc =>
    if c = '_' then
      match rest with
      | [] => none
      | d :: rest' =>
        if isDig d then intGo rest' (acc * 10 + (d.toNat - 48)) else none
    else if isDig c then intGo rest (acc * 10 + (c.toNat - 48)) else none

/-- Nonempty digit sequence (underscore rule as in Python int literals). -/
def digitsVal (ds : Str) : Option Nat :=
  match ds with
  | [] => none
  | c :: rest => if isDig c then intGo rest (c.toNat - 48) else none

/-- Python `int(s)` on the strings this code base feeds it: optional
surrounding whitespace, optional sign, then ASCII digits (with single
underscores allowed between digits).  Returns `none` where Python would
raise `ValueError`. -/
def pyIntCore : Str → Option Int
  | [] => none
  | c :: r =>
    if c = '+' then (digitsVal r).map (fun n => (n : Int))
    else if c = '-' then (digitsVal r).map (fun n => -(n : Int))
    else (digitsVal (c :: r)).map (fun n => (n : Int))

def pyIntParse (s : Str) : Option Int := pyIntCore (pyStrip s)

/-! ## SRT codec (`srt_processor.py`) -/

/-- Last index of `'\n'` in a string, if any. -/
def lastNlIdx (l : Str) : Option Nat :=
  (l.reverse.findIdx? (· == '\n')).map (fun k => l.length - 1 - k)

/-- Attempt to match the separator regex `\n\s*\n` (leftmost-greedy, as
`re.split` does) at the head of the string; on success return the suffix
after the match.  Greedy `\s*` with the final `\n` means the match runs to
the last `'\n'` inside the whitespace run following the initial `'\n'`. -/
def sepMatch (s : Str) : Option Str :=
  match s with
  | [] => none
  | c :: rest =>
    if c = '\n' then
      match lastNlIdx (rest.takeWhile pySpace) with
      | none => none
      | some k => some (rest.drop (k + 1))
    else none

theorem sepMatch_length {s r : Str} (h : sepMatch s = some r) :
    r.length < s.length := by
  unfold sepMatch at h
  split at h
  · exact absurd h (by simp)
  · split at h
    · split at h
      · exact absurd h (by simp)
      · simp only [Option.some.injEq] at h
        subst h
        simp only [List.length_cons, List.length_drop]
        omega
    · exact absurd h (by simp)

/-- `re.split(r'\n\s*\n', s)`: scan left to right, cutting at each
leftmost separator match.  Structural recursion on a fuel parameter
(`sepMatch` shortens the string, so fuel `s.length` always suffices). -/
def splitSepAux : Nat → Str → Str → List Str
  | _, [], acc => [acc.reverse]
  | 0, c :: rest, acc => [acc.reverse ++ c :: rest]
  | fuel + 1, c :: rest, acc =>
    match sepMatch (c :: rest) with
    | some rem => acc.reverse :: splitSepAux fuel rem []
    | none => splitSepAux fuel rest (c :: acc)

def splitSep (s : Str) : List Str := splitSepAux s.length s []

/-- With sufficient fuel, the scan result does not depend on the fuel. -/
theorem splitSepAux_fuel {f1 : Nat} : ∀ {s : Str} {f2 : Nat}, s.length ≤ f1 →
    s.length ≤ f2 → ∀ acc, splitSepAux f1 s acc = splitSepAux f2 s acc := by
  induction f1 with
  | zero =>
    intro s f2 h1 _ acc
    have hs : s = [] := by
      cases s with
      | nil => rfl
      | cons c r => simp at h1
    subst hs
    cases f2 <;> rfl
  | succ g ih =>
    intro s f2 h1 h2 acc
    cases s with
    | nil => cases f2 <;> rfl
    | cons c rest =>
      obtain ⟨g2, rfl⟩ : ∃ g2, f2 = g2 + 1 := by
        cases f2 with
        | zero => simp at h2
        | succ g2 => exact ⟨g2, rfl⟩
      simp only [List.length_cons] at h1 h2
      cases hsm : sepMatch (c :: rest) with
      | some rem =>
        have hlt := sepMatch_length hsm
        simp only [List.length_cons] at hlt
        simp only [splitSepAux, hsm]
        rw [@ih rem g2 (by omega) (by omega)]
      | none =>
        simp only [splitSepAux, hsm]
        rw [@ih rest g2 (by omega) (by omega)]

/-- Shape test for the 12-character timestamp `HH:MM:SS,mmm`
(`\d{2}:\d{2}:\d{2},\d{3}`). -/
def tsShape : Str → Bool
  | [a, b, c, d, e, f, g, h, i, j, k, l] =>
    isDig a && isDig b && c == ':' && isDig d && isDig e && f == ':' &&
    isDig g && isDig h && i == ',' && isDig j && isDig k && isDig l
  | _ => false

/-- `re.match(r'(\d{2}:\d{2}:\d{2},\d{3})\s*-->\s*(\d{2}:\d{2}:\d{2},\d{3})', line)`:
anchored at the start, trailing text allowed; returns the two groups. -/
def tsMatch (line : Str) : Option (Str × Str) :=
  if tsShape (line.take 12) then
    match (line.drop 12).dropWhile pySpace with
    | a :: b :: c :: r3 =>
      if a = '-' ∧ b = '-' ∧ c = '>' then
        if tsShape ((r3.dropWhile pySpace).take 12) then
          some (line.take 12, (r3.dropWhile pySpace).take 12)
        else none
      else none
    | _ => none
  else none

/-- A parsed subtitle entry: `(start_time, end_time, text)`. -/
abbrev SrtEntry := Str × Str × Str

/-- The body of the block loop of `parse_srt_file`: `none` means the
block is silently skipped. -/
def processBlock (block : Str) : Option SrtEntry :=
  if (splitNl (pyStrip block)).length < 3 then none
  else
    match pyIntParse ((splitNl (pyStrip block)).getD 0 []) with
    | none => none
    | some _ =>
      match tsMatch ((splitNl (pyStrip block)).getD 1 []) with
      | none => none
      | some (st, en) =>
        if (pyStrip (pyJoin [' '] ((splitNl (pyStrip block)).drop 2))).isEmpty then
          none
        else some (st, en, pyStrip (pyJoin [' '] ((splitNl (pyStrip block)).drop 2)))

/-- `parse_srt_file` from `srt_processor.py`. -/
def parse_srt_file (content : Str) : List SrtEntry :=
  (splitSep (pyStrip content)).filterMap processBlock

/-- The character for a decimal digit value. -/
def digitChar (d : Nat) : Char :=
  match d with
  | 0 => '0' | 1 => '1' | 2 => '2' | 3 => '3' | 4 => '4'
  | 5 => '5' | 6 => '6' | 7 => '7' | 8 => '8' | _ => '9'

/-- Decimal digits of `n` (the rendering of `{i}` in an f-string).
Structural recursion on a fuel parameter; `natDigits` supplies fuel `n`,
which always suffices since `n / 10 < n`. -/
def natDigitsAux : Nat → Nat → Str
  | 0, n => [digitChar (n % 10)]
  | f + 1, n =>
    if n < 10 then [digitChar n]
    else natDigitsAux f (n / 10) ++ [digitChar (n % 10)]

def natDigits (n : Nat) : Str := natDigitsAux n n

/-- One output block `f"{i}\n{start_time} --> {end_time}\n{text}\n"`. -/
def srtBlock (n : Nat) (e : SrtEntry) : Str :=
  natDigits n ++ '\n' :: e.1 ++ ' ' :: '-' :: '-' :: '>' :: ' ' :: e.2.1 ++
    '\n' :: e.2.2 ++ ['\n']

def numberFrom : Nat → List SrtEntry → List Str
  | _, [] => []
  | n, e :: rest => srtBlock n e :: numberFrom (n + 1) rest

/-- `create_srt_output` from `srt_processor.py`: renumber from 1 and join
the blocks with `'\n'`. -/
def create_srt_output (entries : List SrtEntry) : Str :=
  pyJoin ['\n'] (numberFrom 1 entries)

/-- `re.search` for the timestamp pattern: a match starting anywhere. -/
def hasTsPattern : Str → Bool
  | [] => false
  | c :: rest => (tsMatch (c :: rest)).isSome || hasTsPattern rest

/-- `validate_srt_content` from `srt_processor.py`. -/
def validate_srt_content (content : Str) : Bool :=
  hasTsPattern content && !(parse_srt_file content).isEmpty

/-! ## Character-class facts -/

theorem isDig_not_space {c : Char} (h : isDig c = true) : pySpace c = false := by
  simp only [isDig, Bool.and_eq_true, decide_eq_true_eq] at h
  simp only [pySpace, Bool.or_eq_false_iff, Bool.and_eq_false_iff]
  refine ⟨⟨⟨⟨⟨⟨⟨⟨⟨⟨⟨?_, ?_⟩, ?_⟩, ?_⟩, ?_⟩, ?_⟩, ?_⟩, ?_⟩, ?_⟩, ?_⟩, ?_⟩, ?_⟩ <;>
    simp only [beq_eq_false_iff_ne, ne_eq, decide_eq_false_iff_not, not_and, not_le] <;>
    omega

theorem isDig_ne_nl {c : Char} (h : isDig c = true) : c ≠ '\n' := by
  intro hc
  subst hc
  exact absurd h (by decide)

theorem digitChar_isDig (d : Nat) : isDig (digitChar d) = true := by
  unfold digitChar
  split <;> decide

theorem natDigitsAux_all_dig (f : Nat) : ∀ n, ∀ c ∈ natDigitsAux f n, isDig c = true := by
  induction f with
  | zero =>
    intro n c hc
    simp only [natDigitsAux, List.mem_singleton] at hc
    subst hc
    exact digitChar_isDig _
  | succ g ih =>
    intro n c hc
    rw [natDigitsAux] at hc
    split at hc
    · simp only [List.mem_singleton] at hc
      subst hc
      exact digitChar_isDig _
    · rw [List.mem_append] at hc
      rcases hc with h | h
      · exact ih (n / 10) c h
      · simp only [List.mem_singleton] at h
        subst h
        exact digitChar_isDig _

theorem natDigits_all_dig (n : Nat) : ∀ c ∈ natDigits n, isDig c = true :=
  natDigitsAux_all_dig n n

theorem natDigits_ne_nil (n : Nat) : natDigits n ≠ [] := by
  rw [natDigits]
  cases n with
  | zero => simp [natDigitsAux]
  | succ m =>
    rw [natDigitsAux]
    split
    · simp
    · simp

theorem tsShape_mem {l : Str} (h : tsShape l = true) :
    ∀ c ∈ l, isDig c = true ∨ c = ':' ∨ c = ',' := by
  unfold tsShape at h
  split at h
  · rename_i a b c d e f g h' i j k m
    simp only [Bool.and_eq_true, beq_iff_eq] at h
    intro x hx
    simp only [List.mem_cons, List.not_mem_nil, or_false] at hx
    rcases hx with rfl | rfl | rfl | rfl | rfl | rfl | rfl | rfl | rfl | rfl | rfl | rfl <;>
      tauto
  · exact absurd h (by simp)

theorem tsShape_length {l : Str} (h : tsShape l = true) : l.length = 12 := by
  unfold tsShape at h
  split at h
  · simp
  · exact absurd h (by simp)

theorem tsShape_head_dig {l : Str} (h : tsShape l = true) :
    ∀ {c : Char} {r : Str}, l = c :: r → isDig c = true := by
  unfold tsShape at h
  split at h
  · rename_i a b c' d e f g h' i j k m
    intro c r hl
    rw [List.cons.injEq] at hl
    simp only [Bool.and_eq_true, beq_iff_eq] at h
    rw [← hl.1]
    tauto
  · exact absurd h (by simp)

theorem tsShape_no_nl {l : Str} (h : tsShape l = true) : '\n' ∉ l := by
  intro hm
  rcases tsShape_mem h _ hm with hd | hc | hc
  · exact isDig_ne_nl hd rfl
  · exact absurd hc (by decide)
  · exact absurd hc (by decide)

theorem tsShape_not_space {l : Str} (h : tsShape l = true) :
    ∀ c ∈ l, pySpace c = false := by
  intro c hc
  rcases tsShape_mem h c hc with hd | rfl | rfl
  · exact isDig_not_space hd
  · decide
  · decide

/-! ## `pyStrip` facts -/

theorem pyStrip_def (s : Str) :
    pyStrip s = (s.dropWhile pySpace).rdropWhile pySpace := rfl

theorem pyStrip_sub {s : Str} : ∀ c ∈ pyStrip s, c ∈ s := by
  intro c hc
  rw [pyStrip_def] at hc
  have h1 := (List.rdropWhile_prefix pySpace (s.dropWhile pySpace)).sublist.mem hc
  exact (@List.dropWhile_sublist _ s pySpace).mem h1

theorem pyStrip_stages {s : Str} (h : pyStrip s = s) :
    s.dropWhile pySpace = s ∧ s.rdropWhile pySpace = s := by
  rw [pyStrip_def] at h
  have hsuf : s.dropWhile pySpace <:+ s := List.dropWhile_suffix pySpace
  have hpre : (s.dropWhile pySpace).rdropWhile pySpace <+: s.dropWhile pySpace :=
    List.rdropWhile_prefix pySpace _
  have hlen1 : (s.dropWhile pySpace).length = s.length := by
    have l1 := hpre.length_le
    have l2 := hsuf.length_le
    rw [h] at l1
    omega
  have h2 : s.dropWhile pySpace = s := hsuf.eq_of_length hlen1
  exact ⟨h2, by rw [h2] at h; exact h⟩

theorem trimmed_head {s : Str} (h : pyStrip s = s) {c : Char} {m : Str}
    (hs : s = c :: m) : pySpace c = false := by
  have h1 := (pyStrip_stages h).1
  subst hs
  rw [List.dropWhile_eq_self_iff] at h1
  have := h1 (by simp)
  simpa using this

theorem trimmed_last {s : Str} (h : pyStrip s = s) (hne : s ≠ []) :
    pySpace (s.getLast hne) = false := by
  have h2 := (pyStrip_stages h).2
  rw [List.rdropWhile_eq_self_iff] at h2
  simpa using h2 hne

theorem pyStrip_head_not_space {s : Str} {c : Char} {m : Str}
    (hr : pyStrip s = c :: m) : pySpace c = false := by
  obtain ⟨t, ht⟩ := List.rdropWhile_prefix pySpace (s.dropWhile pySpace)
  have hr' : (s.dropWhile pySpace).rdropWhile pySpace = c :: m := hr
  have hXne : s.dropWhile pySpace ≠ [] := by
    intro h0
    rw [h0] at hr'
    simp at hr'
  have hXc : s.dropWhile pySpace = c :: (m ++ t) := by
    rw [← ht, hr']
    simp
  have hidem := List.dropWhile_idempotent pySpace s
  rw [hXc, List.dropWhile_cons] at hidem
  by_cases hc : pySpace c = true
  · rw [if_pos hc] at hidem
    have hlen := congrArg List.length hidem
    have hle := (@List.dropWhile_sublist _ (m ++ t) pySpace).length_le
    simp only [List.length_cons] at hlen
    omega
  · simpa using hc

theorem pyStrip_idem (s : Str) : pyStrip (pyStrip s) = pyStrip s := by
  have h1 : (pyStrip s).dropWhile pySpace = pyStrip s := by
    match hr : pyStrip s with
    | [] => simp
    | c :: m =>
      have hc := pyStrip_head_not_space hr
      rw [List.dropWhile_cons, hc]
      simp
  rw [pyStrip_def (pyStrip s), h1]
  exact List.rdropWhile_idempotent _ _

theorem pyStrip_eq_self {s : Str} (hhead : ∀ c m, s = c :: m → pySpace c = false)
    (hlast : ∀ hne : s ≠ [], pySpace (s.getLast hne) = false) :
    pyStrip s = s := by
  match hs : s with
  | [] => rfl
  | c :: m =>
    rw [pyStrip_def]
    have h1 : (c :: m).dropWhile pySpace = c :: m := by
      rw [List.dropWhile_eq_self_iff]
      intro _ hp
      simp only [List.get] at hp
      rw [hhead c m rfl] at hp
      exact absurd hp (by simp)
    rw [h1, List.rdropWhile_eq_self_iff]
    intro hl hp
    rw [hlast hl] at hp
    exact absurd hp (by simp)

/-- Append a whitespace character: same strip result. -/
theorem pyStrip_append_ws {s : Str} {w : Char} (hw : pySpace w = true) :
    pyStrip (s ++ [w]) = pyStrip s := by
  rw [pyStrip_def, pyStrip_def]
  by_cases hall : s.dropWhile pySpace = []
  · have h1 : (s ++ [w]).dropWhile pySpace = [] := by
      rw [List.dropWhile_eq_nil_iff] at hall ⊢
      intro x hx
      rcases List.mem_append.mp hx with h | h
      · exact hall x h
      · simp only [List.mem_singleton] at h
        subst h; exact hw
    rw [h1, hall]
  · have h1 : (s ++ [w]).dropWhile pySpace = s.dropWhile pySpace ++ [w] := by
      rw [List.dropWhile_append]
      simp [hall]
    rw [h1, List.rdropWhile_concat_pos _ _ _ hw]

/-! ## Separator-scan lemmas -/

/-- Every `'\n'` in the string is immediately followed (inside the string)
by a non-whitespace character (in particular the string does not end with
`'\n'`).  Such a string contains no match of the separator `\n\s*\n`,
even when followed by further non-whitespace text. -/
def nlOk : Str → Bool
  | [] => true
  | [c] => c != '\n'
  | c :: d :: rest => (c != '\n' || !pySpace d) && nlOk (d :: rest)

theorem sepMatch_cons_not_nl {c : Char} (hc : ¬c = '\n') (rest : Str) :
    sepMatch (c :: rest) = none := by
  simp only [sepMatch]
  rw [if_neg hc]

theorem sepMatch_nl_nonspace {d : Char} (hd : pySpace d = false) (x : Str) :
    sepMatch ('\n' :: d :: x) = none := by
  have h1 : (d :: x).takeWhile pySpace = [] := by
    rw [List.takeWhile_cons, hd]
    simp
  simp only [sepMatch, h1]
  simp [lastNlIdx]

theorem sepMatch_nl_nil : sepMatch ['\n'] = none := rfl

theorem sepMatch_sep {d : Char} (hd : pySpace d = false) (b : Str) :
    sepMatch ('\n' :: '\n' :: d :: b) = some (d :: b) := by
  have h1 : ('\n' :: d :: b).takeWhile pySpace = ['\n'] := by
    rw [List.takeWhile_cons]
    simp only [show pySpace '\n' = true by decide, if_true]
    rw [List.takeWhile_cons, hd]
    simp
  simp only [sepMatch, h1]
  simp [lastNlIdx]

theorem nlOk_of_no_nl {a : Str} (h : '\n' ∉ a) : nlOk a = true := by
  induction a with
  | nil => rfl
  | cons c rest ih =>
    have hc : c ≠ '\n' := fun hh => h (by simp [hh])
    match rest with
    | [] => simp [nlOk, hc]
    | d :: r =>
      rw [nlOk]
      have h2 := ih (fun hm => h (List.mem_cons_of_mem _ hm))
      simp [hc, h2]

theorem nlOk_append_no_nl {a : Str} (h : '\n' ∉ a) {b : Str} (hb : b ≠ []) :
    nlOk (a ++ b) = nlOk b := by
  induction a with
  | nil => rfl
  | cons c rest ih =>
    have hc : c ≠ '\n' := fun hh => h (by simp [hh])
    have h2 := ih (fun hm => h (List.mem_cons_of_mem _ hm))
    match rest, b with
    | [], e :: b' =>
      rw [List.cons_append, List.nil_append, nlOk]
      simp [hc]
    | d :: r, b =>
      rw [List.cons_append, List.cons_append, nlOk]
      rw [List.cons_append] at h2
      simp only [h2]
      simp [hc]

/-- A `nlOk` string is scanned to its end without any separator match. -/
theorem splitSepAux_no_sep {a : Str} (h : nlOk a = true) :
    ∀ {f : Nat}, a.length ≤ f → ∀ acc, splitSepAux f a acc = [acc.reverse ++ a] := by
  induction a with
  | nil =>
    intro f _ acc
    cases f <;> simp [splitSepAux]
  | cons c rest ih =>
    intro f hf acc
    obtain ⟨g, rfl⟩ : ∃ g, f = g + 1 := by
      cases f with
      | zero => simp at hf
      | succ g => exact ⟨g, rfl⟩
    have hsm : sepMatch (c :: rest) = none := by
      by_cases hc : c = '\n'
      · subst hc
        match rest with
        | [] => exact sepMatch_nl_nil
        | d :: r =>
          rw [nlOk] at h
          simp only [Bool.and_eq_true, Bool.or_eq_true, bne_iff_ne, ne_eq,
            Bool.not_eq_true'] at h
          rcases h.1 with h1 | h1
          · exact absurd trivial h1
          · exact sepMatch_nl_nonspace h1 r
      · exact sepMatch_cons_not_nl hc rest
    have hrest : nlOk rest = true := by
      match rest with
      | [] => rfl
      | d :: r =>
        rw [nlOk] at h
        exact (Bool.and_eq_true ..).mp h |>.2
    simp only [List.length_cons] at hf
    simp only [splitSepAux, hsm]
    rw [ih hrest (by omega)]
    simp

/-- A `nlOk` prefix followed by the double-newline separator and a
non-whitespace character: the scan cuts exactly at the separator. -/
theorem splitSepAux_sep {a : Str} (h : nlOk a = true) {d : Char}
    (hd : pySpace d = false) (b : Str) :
    ∀ {f : Nat}, a.length + 2 + (d :: b).length ≤ f → ∀ acc,
      splitSepAux f (a ++ '\n' :: '\n' :: d :: b) acc =
        (acc.reverse ++ a) :: splitSep (d :: b) := by
  induction a with
  | nil =>
    intro f hf acc
    simp only [List.length_nil, List.length_cons] at hf
    obtain ⟨g, rfl⟩ : ∃ g, f = g + 1 := by
      cases f with
      | zero => omega
      | succ g => exact ⟨g, rfl⟩
    rw [List.nil_append]
    simp only [splitSepAux, sepMatch_sep hd]
    rw [@splitSepAux_fuel g (d :: b) (d :: b).length (by simp; omega) (le_refl _)]
    rw [splitSep]
    simp
  | cons c rest ih =>
    intro f hf acc
    simp only [List.length_cons] at hf
    obtain ⟨g, rfl⟩ : ∃ g, f = g + 1 := by
      cases f with
      | zero => omega
      | succ g => exact ⟨g, rfl⟩
    have hsm : sepMatch (c :: (rest ++ '\n' :: '\n' :: d :: b)) = none := by
      by_cases hc : c = '\n'
      · subst hc
        match rest with
        | [] => exact absurd h (by simp [nlOk])
        | e :: r =>
          rw [nlOk] at h
          simp only [Bool.and_eq_true, Bool.or_eq_true, bne_iff_ne, ne_eq,
            Bool.not_eq_true'] at h
          rcases h.1 with h1 | h1
          · exact absurd trivial h1
          · rw [List.cons_append]
            exact sepMatch_nl_nonspace h1 _
      · exact sepMatch_cons_not_nl hc _
    have hrest : nlOk rest = true := by
      match rest with
      | [] => rfl
      | e :: r =>
        rw [nlOk] at h
        exact (Bool.and_eq_true ..).mp h |>.2
    rw [List.cons_append]
    simp only [splitSepAux, hsm]
    rw [ih hrest (by simp; omega)]
    simp

/-! ## `splitNl` and `pyJoin` lemmas -/

theorem splitNl_ne_nil (s : Str) : splitNl s ≠ [] := by
  induction s with
  | nil => simp [splitNl]
  | cons c rest ih =>
    rw [splitNl]
    by_cases hc : (c == '\n') = true
    · simp [hc]
    · simp only [hc, if_false]
      match hr : splitNl rest with
      | [] => exact absurd hr ih
      | h :: t => simp

theorem splitNl_no_nl {s : Str} : ∀ l ∈ splitNl s, '\n' ∉ l := by
  induction s with
  | nil =>
    intro l hl
    simp [splitNl] at hl
    simp [hl]
  | cons c rest ih =>
    intro l hl
    rw [splitNl] at hl
    by_cases hc : (c == '\n') = true
    · simp only [hc, if_true] at hl
      rcases List.mem_cons.mp hl with rfl | hm
      · simp
      · exact ih l hm
    · simp only [hc, if_false] at hl
      match hr : splitNl rest with
      | [] => exact absurd hr (splitNl_ne_nil rest)
      | h :: t =>
        rw [hr] at hl
        rcases List.mem_cons.mp hl with rfl | hm
        · intro hmem
          rcases List.mem_cons.mp hmem with hce | hm2
          · exact hc (beq_iff_eq.mpr hce.symm)
          · exact ih h (by rw [hr]; exact List.mem_cons_self _ _) hm2
        · exact ih l (by rw [hr]; exact List.mem_cons_of_mem _ hm)

theorem splitNl_of_no_nl {a : Str} (h : '\n' ∉ a) : splitNl a = [a] := by
  induction a with
  | nil => rfl
  | cons c rest ih =>
    rw [splitNl]
    have hc : (c == '\n') = false := by
      simp only [beq_eq_false_iff_ne, ne_eq]
      intro hh; exact h (by simp [hh])
    simp only [hc, if_false]
    rw [ih (fun hm => h (List.mem_cons_of_mem _ hm))]
    simp

theorem splitNl_append_nl {a : Str} (h : '\n' ∉ a) (b : Str) :
    splitNl (a ++ '\n' :: b) = a :: splitNl b := by
  induction a with
  | nil => rw [List.nil_append, splitNl]; simp
  | cons c rest ih =>
    rw [List.cons_append, splitNl]
    have hc : (c == '\n') = false := by
      simp only [beq_eq_false_iff_ne, ne_eq]
      intro hh; exact h (by simp [hh])
    simp only [hc, if_false]
    rw [ih (fun hm => h (List.mem_cons_of_mem _ hm))]
    simp

theorem mem_pyJoin {sep : Str} {parts : List Str} :
    ∀ c ∈ pyJoin sep parts, c ∈ sep ∨ ∃ p ∈ parts, c ∈ p := by
  induction parts with
  | nil => intro c hc; simp [pyJoin] at hc
  | cons x rest ih =>
    intro c hc
    match rest with
    | [] =>
      rw [pyJoin] at hc
      exact Or.inr ⟨x, by simp, hc⟩
    | y :: r =>
      rw [pyJoin] at hc
      rcases List.mem_append.mp hc with h1 | h1
      · rcases List.mem_append.mp h1 with h2 | h2
        · exact Or.inr ⟨x, by simp, h2⟩
        · exact Or.inl h2
      · rcases ih c h1 with h2 | ⟨pp, hp, hcp⟩
        · exact Or.inl h2
        · exact Or.inr ⟨pp, List.mem_cons_of_mem _ hp, hcp⟩

/-! ## Round-trip: auxiliary facts about serialized entries -/

theorem natDigits_no_nl (n : Nat) : '\n' ∉ natDigits n :=
  fun hm => isDig_ne_nl (natDigits_all_dig n _ hm) rfl

theorem natDigits_not_space (n : Nat) : ∀ c ∈ natDigits n, pySpace c = false :=
  fun c hc => isDig_not_space (natDigits_all_dig n c hc)

theorem intGo_digits {ds : Str} (h : ∀ c ∈ ds, isDig c = true) :
    ∀ acc, ∃ m, intGo ds acc = some m := by
  induction ds with
  | nil => intro acc; exact ⟨acc, rfl⟩
  | cons c rest ih =>
    intro acc
    have hc := h c (List.mem_cons_self _ _)
    have hcu : ¬(c = '_') := by
      intro hh
      subst hh
      exact absurd hc (by decide)
    rw [intGo.eq_def]
    simp only [if_neg hcu, if_pos hc]
    exact ih (fun d hd => h d (List.mem_cons_of_mem _ hd)) _

theorem pyIntParse_digits {s : Str} (hne : s ≠ [])
    (hdig : ∀ c ∈ s, isDig c = true) : ∃ m, pyIntParse s = some m := by
  have hstrip : pyStrip s = s := by
    apply pyStrip_eq_self
    · intro c m hs
      exact isDig_not_space (hdig c (by rw [hs]; simp))
    · intro hne'
      exact isDig_not_space (hdig _ (List.getLast_mem hne'))
  match hs : s with
  | [] => exact absurd rfl hne
  | c :: r =>
    rw [pyIntParse, hstrip, pyIntCore]
    have hc : isDig c = true := hdig c (by simp)
    have hplus : ¬(c = '+') := by
      intro hh; subst hh; exact absurd hc (by decide)
    have hminus : ¬(c = '-') := by
      intro hh; subst hh; exact absurd hc (by decide)
    rw [if_neg hplus, if_neg hminus]
    rw [digitsVal.eq_def]
    simp only [if_pos hc]
    obtain ⟨m, hm⟩ :=
      intGo_digits (fun d hd => hdig d (List.mem_cons_of_mem _ hd)) (c.toNat - 48)
    rw [hm]
    exact ⟨m, rfl⟩

/-- What `parse_srt_file` guarantees about each entry it produces. -/
def goodEntry (e : SrtEntry) : Prop :=
  tsShape e.1 = true ∧ tsShape e.2.1 = true ∧ e.2.2 ≠ [] ∧
    pyStrip e.2.2 = e.2.2 ∧ '\n' ∉ e.2.2

/-- The serialized timestamp line `{start} --> {end}`. -/
def tsLine (e : SrtEntry) : Str :=
  e.1 ++ ' ' :: '-' :: '-' :: '>' :: ' ' :: e.2.1

theorem tsLine_no_nl {e : SrtEntry} (h : goodEntry e) : '\n' ∉ tsLine e := by
  intro hm
  rcases List.mem_append.mp hm with h1 | h1
  · exact tsShape_no_nl h.1 h1
  · simp only [List.mem_cons] at h1
    rcases h1 with h2 | h2 | h2 | h2 | h2 | h2
    · exact absurd h2 (by decide)
    · exact absurd h2 (by decide)
    · exact absurd h2 (by decide)
    · exact absurd h2 (by decide)
    · exact absurd h2 (by decide)
    · exact tsShape_no_nl h.2.1 h2

theorem tsMatch_tsLine {e : SrtEntry} (h : goodEntry e) :
    tsMatch (tsLine e) = some (e.1, e.2.1) := by
  obtain ⟨h1, h2, _⟩ := h
  have hlen1 : e.1.length = 12 := tsShape_length h1
  have htake : (tsLine e).take 12 = e.1 := by
    rw [tsLine, ← hlen1, List.take_left]
  have hdrop : (tsLine e).drop 12 = ' ' :: '-' :: '-' :: '>' :: ' ' :: e.2.1 := by
    rw [tsLine, ← hlen1, List.drop_left]
  have hen : (' ' :: e.2.1).dropWhile pySpace = e.2.1 := by
    rw [List.dropWhile_cons]
    simp only [show pySpace ' ' = true by decide, if_true]
    match hs : e.2.1 with
    | [] => exact absurd (by rw [hs] at h2; exact h2) (by simp [tsShape])
    | c :: r =>
      rw [List.dropWhile_cons]
      have hc : isDig c = true := tsShape_head_dig h2 hs
      rw [isDig_not_space hc]
      simp
  have hdw : (' ' :: '-' :: '-' :: '>' :: ' ' :: e.2.1).dropWhile pySpace =
      '-' :: '-' :: '>' :: ' ' :: e.2.1 := by
    rw [List.dropWhile_cons]
    simp only [show pySpace ' ' = true by decide, if_true]
    rw [List.dropWhile_cons]
    simp [show pySpace '-' = false by decide]
  have hen12 : e.2.1.take 12 = e.2.1 := by
    rw [← tsShape_length h2]
    exact List.take_length _
  rw [tsMatch, htake, if_pos h1, hdrop, hdw]
  simp [hen, hen12, h2]

/-! ## Round-trip: serialized blocks re-parse to themselves -/

/-- The serialized block without its trailing newline. -/
def coreBlock (n : Nat) (e : SrtEntry) : Str :=
  natDigits n ++ '\n' :: (tsLine e ++ '\n' :: e.2.2)

theorem srtBlock_eq (n : Nat) (e : SrtEntry) :
    srtBlock n e = coreBlock n e ++ ['\n'] := by
  simp [srtBlock, coreBlock, tsLine]

theorem trimmed_head? {s : Str} (h : pyStrip s = s) {c : Char}
    (hc : s.head? = some c) : pySpace c = false := by
  match hs : s with
  | [] => simp at hc
  | a :: m =>
    simp only [List.head?_cons, Option.some.injEq] at hc
    subst hc
    exact trimmed_head h rfl

theorem trimmed_last? {s : Str} (h : pyStrip s = s) {d : Char}
    (hd : s.getLast? = some d) : pySpace d = false := by
  have hne : s ≠ [] := by
    intro h0
    rw [h0] at hd
    simp at hd
  have h2 := trimmed_last h hne
  rw [List.getLast?_eq_getLast s hne] at hd
  simp only [Option.some.injEq] at hd
  rw [← hd]
  exact h2

theorem coreBlock_head? (n : Nat) (e : SrtEntry) :
    ∃ d, (coreBlock n e).head? = some d ∧ isDig d = true := by
  match hnd : natDigits n with
  | [] => exact absurd hnd (natDigits_ne_nil n)
  | d :: r =>
    refine ⟨d, ?_, natDigits_all_dig n d (by rw [hnd]; simp)⟩
    rw [coreBlock, hnd]
    rfl

theorem coreBlock_getLast? (n : Nat) {e : SrtEntry} (h : goodEntry e) :
    (coreBlock n e).getLast? = e.2.2.getLast? := by
  rw [coreBlock]
  rw [List.getLast?_append_of_ne_nil _ (by simp)]
  rw [show ('\n' :: (tsLine e ++ '\n' :: e.2.2)) =
    ['\n'] ++ (tsLine e ++ '\n' :: e.2.2) from rfl]
  rw [List.getLast?_append_of_ne_nil _ (by simp)]
  rw [List.getLast?_append_of_ne_nil _ (by simp)]
  rw [show ('\n' :: e.2.2) = ['\n'] ++ e.2.2 from rfl]
  rw [List.getLast?_append_of_ne_nil _ h.2.2.1]

theorem pyStrip_coreBlock (n : Nat) {e : SrtEntry} (h : goodEntry e) :
    pyStrip (coreBlock n e) = coreBlock n e := by
  obtain ⟨d, hd, hdig⟩ := coreBlock_head? n e
  apply pyStrip_eq_self
  · intro c m hs
    rw [hs] at hd
    simp only [List.head?_cons, Option.some.injEq] at hd
    rw [hd]
    exact isDig_not_space hdig
  · intro hne
    have h1 := List.getLast?_eq_getLast _ hne
    rw [coreBlock_getLast? n h] at h1
    exact trimmed_last? h.2.2.2.1 h1

theorem splitNl_coreBlock (n : Nat) {e : SrtEntry} (h : goodEntry e) :
    splitNl (coreBlock n e) = [natDigits n, tsLine e, e.2.2] := by
  rw [coreBlock]
  rw [splitNl_append_nl (natDigits_no_nl n)]
  rw [splitNl_append_nl (tsLine_no_nl h)]
  rw [splitNl_of_no_nl h.2.2.2.2]

theorem nlOk_nl_cons {c : Char} {r : Str} (hc : pySpace c = false)
    (h : nlOk (c :: r) = true) : nlOk ('\n' :: c :: r) = true := by
  rw [nlOk]
  simp [hc, h]

theorem nlOk_coreBlock (n : Nat) {e : SrtEntry} (h : goodEntry e) :
    nlOk (coreBlock n e) = true := by
  obtain ⟨h1, h2, hne, hstr, hnl⟩ := h
  have hA : nlOk (tsLine e ++ '\n' :: e.2.2) = true := by
    rw [nlOk_append_no_nl (tsLine_no_nl ⟨h1, h2, hne, hstr, hnl⟩) (by simp)]
    match htx : e.2.2 with
    | [] => exact absurd htx hne
    | t1 :: tr =>
      have ht1 : pySpace t1 = false := trimmed_head (htx ▸ hstr) rfl
      exact nlOk_nl_cons ht1 (nlOk_of_no_nl (htx ▸ hnl))
  rw [coreBlock]
  rw [nlOk_append_no_nl (natDigits_no_nl n) (by simp)]
  match hts : e.1 with
  | [] => exact absurd (hts ▸ h1) (by simp [tsShape])
  | s1 :: sr =>
    have hs1 : isDig s1 = true := tsShape_head_dig h1 hts
    have heq : tsLine e ++ '\n' :: e.2.2 =
        s1 :: (sr ++ ' ' :: '-' :: '-' :: '>' :: ' ' :: e.2.1 ++ '\n' :: e.2.2) := by
      rw [tsLine, hts]
      simp
    rw [heq]
    apply nlOk_nl_cons (isDig_not_space hs1)
    rw [← heq]
    exact hA

/-- Concatenation of the serialized blocks, numbered from `n`, separated
by the blank-line separator, without the final newline. -/
def chainCores : Nat → List SrtEntry → Str
  | _, [] => []
  | n, [e] => coreBlock n e
  | n, e :: e' :: rest => coreBlock n e ++ '\n' :: '\n' :: chainCores (n + 1) (e' :: rest)

def coresOf : Nat → List SrtEntry → List Str
  | _, [] => []
  | n, e :: rest => coreBlock n e :: coresOf (n + 1) rest

theorem join_numberFrom : ∀ (rest : List SrtEntry) (n : Nat) (e : SrtEntry),
    pyJoin ['\n'] (numberFrom n (e :: rest)) = chainCores n (e :: rest) ++ ['\n'] := by
  intro rest
  induction rest with
  | nil =>
    intro n e
    rw [numberFrom, numberFrom, pyJoin, chainCores, srtBlock_eq]
  | cons e' r ih =>
    intro n e
    have hih := ih (n + 1) e'
    rw [numberFrom] at hih
    rw [numberFrom, numberFrom, pyJoin, hih, chainCores, srtBlock_eq]
    simp

theorem chainCores_head : ∀ (rest : List SrtEntry) (n : Nat) (e : SrtEntry),
    ∃ d r', chainCores n (e :: rest) = d :: r' ∧ isDig d = true := by
  intro rest n e
  obtain ⟨d0, hd0, hdig⟩ := coreBlock_head? n e
  match hc : coreBlock n e with
  | [] => rw [hc] at hd0; simp at hd0
  | d :: rr =>
    rw [hc] at hd0
    simp only [List.head?_cons, Option.some.injEq] at hd0
    subst hd0
    match rest with
    | [] => exact ⟨d, rr, by rw [chainCores, hc], hdig⟩
    | e' :: r =>
      exact ⟨d, rr ++ '\n' :: '\n' :: chainCores (n + 1) (e' :: r),
        by rw [chainCores, hc]; simp, hdig⟩

theorem chainCores_last : ∀ (rest : List SrtEntry) (n : Nat) (e : SrtEntry),
    goodEntry e → (∀ x ∈ rest, goodEntry x) →
    ∀ c, (chainCores n (e :: rest)).getLast? = some c → pySpace c = false := by
  intro rest
  induction rest with
  | nil =>
    intro n e he _ c hc
    rw [chainCores, coreBlock_getLast? n he] at hc
    exact trimmed_last? he.2.2.2.1 hc
  | cons e' r ih =>
    intro n e he hrest c hc
    rw [chainCores] at hc
    obtain ⟨d, rr, hchain, _⟩ := chainCores_head r (n + 1) e'
    rw [List.getLast?_append_of_ne_nil _ (by simp)] at hc
    rw [show ('\n' :: '\n' :: chainCores (n + 1) (e' :: r)) =
      ['\n', '\n'] ++ chainCores (n + 1) (e' :: r) from rfl] at hc
    rw [List.getLast?_append_of_ne_nil _ (by rw [hchain]; simp)] at hc
    exact ih (n + 1) e' (hrest e' (by simp)) (fun x hx => hrest x (by simp [hx])) c hc

theorem splitSep_chain : ∀ (rest : List SrtEntry) (n : Nat) (e : SrtEntry),
    goodEntry e → (∀ x ∈ rest, goodEntry x) →
    splitSep (chainCores n (e :: rest)) = coresOf n (e :: rest) := by
  intro rest
  induction rest with
  | nil =>
    intro n e he _
    rw [chainCores, coresOf, coresOf, splitSep]
    rw [splitSepAux_no_sep (nlOk_coreBlock n he) (le_refl _)]
    simp
  | cons e' r ih =>
    intro n e he hrest
    obtain ⟨d, rr, hchain, hdig⟩ := chainCores_head r (n + 1) e'
    rw [chainCores, splitSep, hchain]
    rw [splitSepAux_sep (nlOk_coreBlock n he) (isDig_not_space hdig) rr
      (by simp [List.length_append]; omega) []]
    rw [← hchain, ih (n + 1) e' (hrest e' (by simp)) (fun x hx => hrest x (by simp [hx]))]
    rfl

theorem processBlock_coreBlock (n : Nat) {e : SrtEntry} (h : goodEntry e) :
    processBlock (coreBlock n e) = some e := by
  have hlines : splitNl (pyStrip (coreBlock n e)) = [natDigits n, tsLine e, e.2.2] := by
    rw [pyStrip_coreBlock n h, splitNl_coreBlock n h]
  rw [processBlock, hlines]
  have hlen : ¬([natDigits n, tsLine e, e.2.2].length < 3) := by simp
  rw [if_neg hlen]
  obtain ⟨m, hm⟩ := pyIntParse_digits (natDigits_ne_nil n) (natDigits_all_dig n)
  have hgd0 : [natDigits n, tsLine e, e.2.2].getD 0 [] = natDigits n := rfl
  have hgd1 : [natDigits n, tsLine e, e.2.2].getD 1 [] = tsLine e := rfl
  have hdrop : pyStrip (pyJoin [' '] ([natDigits n, tsLine e, e.2.2].drop 2)) = e.2.2 := by
    show pyStrip (pyJoin [' '] [e.2.2]) = e.2.2
    rw [pyJoin]
    exact h.2.2.2.1
  simp only [hgd0, hgd1, hm, tsMatch_tsLine h, hdrop]
  have hempty : e.2.2.isEmpty = false := by
    rw [List.isEmpty_eq_false]
    exact h.2.2.1
  rw [if_neg (by simp [hempty])]

theorem filterMap_coresOf : ∀ (l : List SrtEntry) (n : Nat),
    (∀ e ∈ l, goodEntry e) → (coresOf n l).filterMap processBlock = l := by
  intro l
  induction l with
  | nil => intro n _; rfl
  | cons e rest ih =>
    intro n h
    rw [coresOf]
    rw [List.filterMap_cons]
    simp only [processBlock_coreBlock n (h e (by simp))]
    rw [ih (n + 1) (fun x hx => h x (by simp [hx]))]

/-- Any list of good entries serializes to a string that parses back to
exactly that list. -/
theorem parse_create {l : List SrtEntry} (h : ∀ e ∈ l, goodEntry e) :
    parse_srt_file (create_srt_output l) = l := by
  match l with
  | [] => rfl
  | e :: rest =>
    rw [create_srt_output, join_numberFrom rest 1 e, parse_srt_file]
    rw [pyStrip_append_ws (by decide)]
    have hgood : ∀ x ∈ (e :: rest), goodEntry x := h
    have hchain_strip : pyStrip (chainCores 1 (e :: rest)) = chainCores 1 (e :: rest) := by
      obtain ⟨d, rr, hchain, hdig⟩ := chainCores_head rest 1 e
      apply pyStrip_eq_self
      · intro c m hs
        rw [hchain] at hs
        rw [List.cons.injEq] at hs
        rw [← hs.1]
        exact isDig_not_space hdig
      · intro hne
        exact chainCores_last rest 1 e (hgood e (by simp))
          (fun x hx => hgood x (by simp [hx])) _ (List.getLast?_eq_getLast _ hne)
    rw [hchain_strip]
    rw [splitSep_chain rest 1 e (hgood e (by simp)) (fun x hx => hgood x (by simp [hx]))]
    exact filterMap_coresOf (e :: rest) 1 hgood

/-! ## Every parsed entry is good -/

theorem tsMatch_some {line st en : Str} (h : tsMatch line = some (st, en)) :
    tsShape st = true ∧ tsShape en = true := by
  rw [tsMatch] at h
  split at h
  · rename_i hts1
    split at h
    · split at h
      · split at h
        · rename_i hts2
          simp only [Option.some.injEq, Prod.mk.injEq] at h
          rw [← h.1, ← h.2]
          exact ⟨hts1, hts2⟩
        · exact absurd h (by simp)
      · exact absurd h (by simp)
    · exact absurd h (by simp)
  · exact absurd h (by simp)

theorem processBlock_good {b : Str} {e : SrtEntry}
    (h : processBlock b = some e) : goodEntry e := by
  rw [processBlock] at h
  split at h
  · exact absurd h (by simp)
  · split at h
    · exact absurd h (by simp)
    · split at h
      · exact absurd h (by simp)
      · rename_i st en hts
        split at h
        · exact absurd h (by simp)
        · rename_i hemp
          simp only [Option.some.injEq] at h
          obtain ⟨h1, h2⟩ := tsMatch_some hts
          have htext : '\n' ∉ pyStrip (pyJoin [' '] ((splitNl (pyStrip b)).drop 2)) := by
            intro hm
            have hm2 := pyStrip_sub '\n' hm
            rcases mem_pyJoin '\n' hm2 with hsep | ⟨p, hp, hcp⟩
            · simp at hsep
            · exact splitNl_no_nl p
                (List.Sublist.mem hp (List.drop_sublist 2 _)) hcp
          have hne : pyStrip (pyJoin [' '] ((splitNl (pyStrip b)).drop 2)) ≠ [] := by
            intro h0
            rw [List.isEmpty_eq_true] at hemp
            exact hemp h0
          rw [← h]
          exact ⟨h1, h2, hne, pyStrip_idem _, htext⟩

theorem parse_good (s : Str) : ∀ e ∈ parse_srt_file s, goodEntry e := by
  intro e he
  rw [parse_srt_file] at he
  obtain ⟨b, _, hb⟩ := List.mem_filterMap.mp he
  exact processBlock_good hb

/-! ## Claim C1 -/

/-- **C1**: for every input string accepted by `validate_srt_content`,
re-parsing the output of `create_srt_output (parse_srt_file s)` yields a
list of entries equal element by element to `parse_srt_file s` (same
start, end, text, in order; sequence numbers are renumbered from 1 and do
not appear in parsed entries at all). -/
theorem C1_parse_serialize_roundtrip (s : Str)
    (h : validate_srt_content s = true) :
    parse_srt_file (create_srt_output (parse_srt_file s)) = parse_srt_file s :=
  parse_create (parse_good s)

/-- Witness for C1 at a concrete validated SRT string. -/
theorem C1_parse_serialize_roundtrip_witness :
    validate_srt_content
      ("1\n00:00:01,000 --> 00:00:03,000\nHello world\n\n2\n00:00:04,000 -->  00:00:06,500\n How are\nyou?\n".data)
      = true ∧
    parse_srt_file (create_srt_output (parse_srt_file
      ("1\n00:00:01,000 --> 00:00:03,000\nHello world\n\n2\n00:00:04,000 -->  00:00:06,500\n How are\nyou?\n".data))) =
    parse_srt_file
      ("1\n00:00:01,000 --> 00:00:03,000\nHello world\n\n2\n00:00:04,000 -->  00:00:06,500\n How are\nyou?\n".data) :=
  ⟨by decide, C1_parse_serialize_roundtrip _ (by decide)⟩

/-! ## `_parse_batch_response` (`translator.py`) -/

/-- Python `sub in line` for a single separator character and
`line.split(sep, 1)[1]`: everything after the first occurrence. -/
def afterFirst (sep : Char) (l : Str) : Str :=
  (l.dropWhile (fun c => !(c == sep))).drop 1

/-- `line.startswith(f"{i}.") or line.startswith(f"{i})")`. -/
def isMarked (i : Nat) (line : Str) : Bool :=
  (natDigits i ++ ['.']).isPrefixOf line || (natDigits i ++ [')']).isPrefixOf line

/-- Extraction from a marked line: split on the first `'.'` when the line
contains one, otherwise on the first `')'`, then trim. -/
def lineExtract (line : Str) : Str :=
  if line.contains '.' then pyStrip (afterFirst '.' line)
  else pyStrip (afterFirst ')' line)

/-- One iteration of the `for i in range(1, expected_count + 1)` loop of
`_parse_batch_response`: scan for the first line carrying marker `i`;
otherwise fall back to the `i`-th raw line; otherwise the placeholder. -/
def parseItem (lines : List Str) (i : Nat) : Str :=
  match lines.find? (fun line => isMarked i (pyStrip line)) with
  | some line => lineExtract (pyStrip line)
  | none =>
    if i ≤ lines.length then
      if isMarked i (pyStrip (lines.getD (i - 1) [])) then
        lineExtract (pyStrip (lines.getD (i - 1) []))
      else pyStrip (lines.getD (i - 1) [])
    else "Translation ".data ++ natDigits i ++ " not found".data

/-- The final `while len(translations) < expected_count` padding loop
(dead code in practice, embedded for faithfulness). -/
def padMissing (l : List Str) (n : Nat) : List Str :=
  l ++ (List.range' (l.length + 1) (n - l.length)).map
    (fun k => "Missing translation ".data ++ natDigits k)

/-- `_parse_batch_response` from `translator.py`. -/
def parse_batch_response (response_text : Str) (expected_count : Nat) : List Str :=
  if expected_count = 1 ∧
      ((splitNl (pyStrip response_text)).length = 1 ∨
        ¬(splitNl (pyStrip response_text)).any
          (fun line => isMarked 1 (pyStrip line))) then
    [pyStrip response_text]
  else
    (padMissing
      ((List.range' 1 expected_count).map
        (parseItem (splitNl (pyStrip response_text))))
      expected_count).take expected_count

/-! ## Claim C5 -/

/-- The per-index rule exactly as claim C5 states it: for each index the
first line starting with `{i}.` or `{i})` is split after the first `'.'`
or `')'` (whichever comes first) and trimmed; without such a line the
`i`-th raw line is used; past the end of the lines the placeholder is
produced.  (Stated from the claim's words, for comparison with the
code's `parse_batch_response`.) -/
def claimC5 (response : Str) (n : Nat) : List Str :=
  (List.range' 1 n).map (fun i =>
    match (splitNl (pyStrip response)).find? (fun l => isMarked i (pyStrip l)) with
    | some l =>
      pyStrip (((pyStrip l).dropWhile (fun c => !(c == '.' || c == ')'))).drop 1)
    | none =>
      if i ≤ (splitNl (pyStrip response)).length then
        pyStrip ((splitNl (pyStrip response)).getD (i - 1) [])
      else "Translation ".data ++ natDigits i ++ " not found".data)

/-- **C5, counterexample**: for the two-line unnumbered reply
`"Hello\nWorld"` with `expected_count = 1`, the code returns the whole
reply as the single item, not the first raw line as the claim's
per-index rule demands. -/
theorem C5_counterexample :
    parse_batch_response "Hello\nWorld".data 1 = ["Hello\nWorld".data] ∧
    claimC5 "Hello\nWorld".data 1 = ["Hello".data] ∧
    parse_batch_response "Hello\nWorld".data 1 ≠ claimC5 "Hello\nWorld".data 1 := by
  refine ⟨by decide, by decide, by decide⟩

/-- **C5, amended**: `_parse_batch_response` always returns exactly
`expected_count` strings (total function, never raises).  When
`expected_count = 1` and the stripped reply is a single line or has no
line starting with `"1."`/`"1)"`, the whole stripped reply is the single
item.  Otherwise item `i` follows `parseItem`: the first line whose
stripped form carries marker `i` is split at the first `'.'` if the line
contains one, else at the first `')'`, then trimmed; with no marked line
the `i`-th raw line (trimmed) is used; and past the end of the lines the
placeholder `"Translation {i} not found"` results instead of an error. -/
theorem C5_amended (resp : Str) (n : Nat) (hn : 1 ≤ n) :
    (parse_batch_response resp n).length = n ∧
    ((n = 1 ∧ ((splitNl (pyStrip resp)).length = 1 ∨
        ¬(splitNl (pyStrip resp)).any (fun line => isMarked 1 (pyStrip line)))) →
      parse_batch_response resp n = [pyStrip resp]) ∧
    (∀ i, 1 ≤ i → i ≤ n →
      ¬(n = 1 ∧ ((splitNl (pyStrip resp)).length = 1 ∨
          ¬(splitNl (pyStrip resp)).any (fun line => isMarked 1 (pyStrip line)))) →
      (parse_batch_response resp n).getD (i - 1) [] =
        parseItem (splitNl (pyStrip resp)) i) ∧
    (∀ i, 1 ≤ i → i ≤ n → (splitNl (pyStrip resp)).length < i →
      (splitNl (pyStrip resp)).find? (fun line => isMarked i (pyStrip line)) = none →
      ¬(n = 1 ∧ ((splitNl (pyStrip resp)).length = 1 ∨
          ¬(splitNl (pyStrip resp)).any (fun line => isMarked 1 (pyStrip line)))) →
      (parse_batch_response resp n).getD (i - 1) [] =
        "Translation ".data ++ natDigits i ++ " not found".data) := by
  have hbody : ∀ (hns : ¬(n = 1 ∧ ((splitNl (pyStrip resp)).length = 1 ∨
      ¬(splitNl (pyStrip resp)).any (fun line => isMarked 1 (pyStrip line))))),
      parse_batch_response resp n =
        (List.range' 1 n).map (parseItem (splitNl (pyStrip resp))) := by
    intro hns
    rw [parse_batch_response, if_neg hns, padMissing]
    have hlen : ((List.range' 1 n).map (parseItem (splitNl (pyStrip resp)))).length = n := by
      simp
    rw [hlen]
    simp
  constructor
  · by_cases hc : (n = 1 ∧ ((splitNl (pyStrip resp)).length = 1 ∨
        ¬(splitNl (pyStrip resp)).any (fun line => isMarked 1 (pyStrip line))))
    · rw [parse_batch_response, if_pos hc]
      simp [hc.1]
    · rw [hbody hc]
      simp
  refine ⟨?_, ?_, ?_⟩
  · intro hc
    rw [parse_batch_response, if_pos hc]
  · intro i h1 h2 hns
    rw [hbody hns]
    have hlt : i - 1 < n := by omega
    rw [List.getD_eq_getElem?_getD]
    rw [List.getElem?_map]
    rw [List.getElem?_range']
    · show parseItem (splitNl (pyStrip resp)) (1 + 1 * (i - 1)) = _
      rw [show 1 + 1 * (i - 1) = i from by omega]
    · exact hlt
  · intro i h1 h2 hlines hfind hns
    rw [hbody hns]
    have hlt : i - 1 < n := by omega
    rw [List.getD_eq_getElem?_getD, List.getElem?_map, List.getElem?_range']
    · show parseItem (splitNl (pyStrip resp)) (1 + 1 * (i - 1)) = _
      rw [show 1 + 1 * (i - 1) = i from by omega]
      rw [parseItem, hfind]
      rw [if_neg (by omega)]
    · exact hlt

/-- Witness for C5 at a concrete reply with a missing third item. -/
theorem C5_amended_witness :
    (1 ≤ 3 ∧ (parse_batch_response "1. Hello\n2. World".data 3).length = 3) ∧
    parse_batch_response "1. Hello\n2. World".data 3 =
      ["Hello".data, "World".data,
        "Translation ".data ++ natDigits 3 ++ " not found".data] :=
  ⟨⟨by decide, (C5_amended "1. Hello\n2. World".data 3 (by decide)).1⟩, by decide⟩

/-! ## `estimate_translation_cost` (`translator.py`) -/

/-- Python `str.lower()` over the ASCII range (the compared needle
`"english"` is ASCII; non-ASCII letters are left unchanged, which only
matters for exotic language labels). -/
def lowerChar (c : Char) : Char :=
  if 65 ≤ c.toNat ∧ c.toNat ≤ 90 then Char.ofNat (c.toNat + 32) else c

def pyLower (s : Str) : Str := s.map lowerChar

/-- Python substring test `needle in hay`. -/
def isSubstr : Str → Str → Bool
  | n, [] => n.isEmpty
  | n, c :: rest => n.isPrefixOf (c :: rest) || isSubstr n rest

/-- `"english" in target_language.lower()`. -/
def isEnglishTarget (target_language : Str) : Bool :=
  isSubstr "english".data (pyLower target_language)

/-- `sum(len(text) for text in text_list if text and text.strip())`. -/
def totalChars (text_list : List Str) : Nat :=
  ((text_list.filter (fun t => !(pyStrip t).isEmpty)).map List.length).sum

/-- The dictionary returned by `estimate_translation_cost`.  The cost is
modelled as an exact rational (Python uses floats; the claims about the
estimator concern the integer token counts and the selected price row). -/
structure CostEstimate where
  total_characters : Nat
  estimated_input_tokens : Nat
  estimated_output_tokens : Nat
  estimated_cost_usd : ℚ
  total_texts : Nat
  model : Str
deriving DecidableEq, Repr

/-- `pricing_map.get(model, pricing_map["gpt-5-mini"])`: per-1K-token
input/output prices. -/
def pricingFor (model : Str) : ℚ × ℚ :=
  if model = "gpt-5".data then (0.00125, 0.01)
  else if model = "gpt-5-mini".data then (0.00025, 0.002)
  else (0.00025, 0.002)

/-- `estimate_translation_cost` from `translator.py`. -/
def estimate_translation_cost (text_list : List Str) (target_language : Str)
    (model : Str) : CostEstimate :=
  if text_list.isEmpty then ⟨0, 0, 0, 0, 0, model⟩
  else if totalChars text_list = 0 then ⟨0, 0, 0, 0, 0, model⟩
  else
    let char_per_token : Nat := if isEnglishTarget target_language then 4 else 3
    let estimated_input_tokens := max 1 (totalChars text_list / char_per_token)
    let pricing := pricingFor model
    let input_cost := (estimated_input_tokens : ℚ) / 1000 * pricing.1
    let output_cost := (estimated_input_tokens : ℚ) / 1000 * pricing.2
    ⟨totalChars text_list, estimated_input_tokens, estimated_input_tokens,
      max (input_cost + output_cost) 0.000001,
      (text_list.filter (fun t => !(pyStrip t).isEmpty)).length, model⟩

/-! ## Claim C8 -/

/-- **C8, counterexample**: the claim omits the `max(1, ·)` floor — for
`["abc"]` targeting English the code reports 1 input token while
`3 // 4 = 0`; and for 8 characters the non-English estimate (`8 // 3 = 2`)
does not strictly exceed the English one (`8 // 4 = 2`), refuting the
claimed strict inequality for identical text. -/
theorem C8_counterexample :
    (estimate_translation_cost ["abc".data] "English".data
        "gpt-5-mini".data).estimated_input_tokens = 1 ∧
    (3 : Nat) / 4 = 0 ∧
    (estimate_translation_cost ["12345678".data] "French".data
          "gpt-5-mini".data).estimated_input_tokens =
      (estimate_translation_cost ["12345678".data] "English".data
          "gpt-5-mini".data).estimated_input_tokens := by
  refine ⟨by decide, by decide, by decide⟩

/-- **C8, amended**: the estimator sums the character counts of the
non-blank items; the input-token estimate is `max 1 (total // 4)` for an
English target (`"english"` contained in the lowercased label) and
`max 1 (total // 3)` otherwise; the output estimate equals the input
estimate; and for identical text the non-English estimate is at least
the English one, strictly greater exactly when `2 ≤ total // 3` and
`total // 4 < total // 3` (the `max(1, ·)` floor equalizes the two when
`total // 3 ≤ 1`, e.g. at 3 characters; at the 23-character example the
inequality is strict: 5 vs 7). -/
theorem C8_amended (texts : List Str) (langE langO model : Str)
    (htot : totalChars texts ≠ 0)
    (hE : isEnglishTarget langE = true) (hO : isEnglishTarget langO = false) :
    (estimate_translation_cost texts langE model).total_characters = totalChars texts ∧
    (estimate_translation_cost texts langE model).estimated_input_tokens =
      max 1 (totalChars texts / 4) ∧
    (estimate_translation_cost texts langO model).estimated_input_tokens =
      max 1 (totalChars texts / 3) ∧
    (estimate_translation_cost texts langE model).estimated_output_tokens =
      (estimate_translation_cost texts langE model).estimated_input_tokens ∧
    (estimate_translation_cost texts langE model).estimated_input_tokens ≤
      (estimate_translation_cost texts langO model).estimated_input_tokens ∧
    ((estimate_translation_cost texts langE model).estimated_input_tokens <
        (estimate_translation_cost texts langO model).estimated_input_tokens ↔
      (2 ≤ totalChars texts / 3 ∧
        totalChars texts / 4 < totalChars texts / 3)) := by
  have hne : ¬texts.isEmpty = true := by
    intro h
    rw [List.isEmpty_eq_true] at h
    rw [h] at htot
    exact htot rfl
  rw [estimate_translation_cost, if_neg hne, if_neg htot]
  rw [estimate_translation_cost, if_neg hne, if_neg htot]
  simp only [hE, hO, if_true, if_false]
  have hdiv : totalChars texts / 4 ≤ totalChars texts / 3 :=
    Nat.div_le_div_left (by omega) (by omega)
  refine ⟨by simp, by simp, by simp, by simp, ?_, ?_⟩
  · exact max_le_max (le_refl 1) hdiv
  · show max 1 (totalChars texts / 4) < max 1 (totalChars texts / 3) ↔ _
    omega

/-- Witness for C8 at the spec's 23-character example, where the
strictness condition holds and the inequality is strict (5 < 7). -/
theorem C8_amended_witness :
    totalChars ["Hello world".data, "How are you?".data] = 23 ∧
    (estimate_translation_cost ["Hello world".data, "How are you?".data]
        "English".data "gpt-5-mini".data).estimated_input_tokens = 5 ∧
    (estimate_translation_cost ["Hello world".data, "How are you?".data]
        "Traditional Chinese".data "gpt-5-mini".data).estimated_input_tokens = 7 ∧
    (estimate_translation_cost ["Hello world".data, "How are you?".data]
        "English".data "gpt-5-mini".data).estimated_input_tokens <
      (estimate_translation_cost ["Hello world".data, "How are you?".data]
        "Traditional Chinese".data "gpt-5-mini".data).estimated_input_tokens := by
  have h := C8_amended ["Hello world".data, "How are you?".data]
    "English".data "Traditional Chinese".data "gpt-5-mini".data
    (by decide) (by decide) (by decide)
  refine ⟨by decide, ?_, ?_, ?_⟩
  · rw [h.2.1]
    decide
  · rw [h.2.2.1]
    decide
  · exact h.2.2.2.2.2.mpr (by decide)

/-! ## Context store (`context_manager.py`) -/

/-- A Python `dict` with string keys, modelled as an association list in
insertion order (keys distinct). -/
abbrev TermDict := List (Str × Str)

/-- `d.get(k)` / `k in d` for the modelled dictionaries. -/
def pyGetKV {α : Type} (d : List (Str × α)) (k : Str) : Option α :=
  (d.find? (fun p => p.1 == k)).map Prod.snd

/-- `d[k] = v`: overwrite in place when the key exists, else append
(Python dict assignment preserves insertion order). -/
def pySetKV {α : Type} : List (Str × α) → Str → α → List (Str × α)
  | [], k, v => [(k, v)]
  | (k', v') :: rest, k, v =>
    if k' == k then (k', v) :: rest else (k', v') :: pySetKV rest k v

def dlookup (d : TermDict) (k : Str) : Option Str := pyGetKV d k

/-- `self.term_confidence.get(k, 0)`. -/
def confGet (d : List (Str × Nat)) (k : Str) : Nat := (pyGetKV d k).getD 0

def confSet (d : List (Str × Nat)) (k : Str) (v : Nat) : List (Str × Nat) :=
  pySetKV d k v

def dictSet (d : TermDict) (k : Str) (v : Str) : TermDict := pySetKV d k v

/-- `d.update(other)`: assign every pair of `other`, in order. -/
def dictUpdate (d : TermDict) (other : TermDict) : TermDict :=
  other.foldl (fun acc p => dictSet acc p.1 p.2) d

theorem pyGet_pySet_same {α : Type} (d : List (Str × α)) (k : Str) (v : α) :
    pyGetKV (pySetKV d k v) k = some v := by
  induction d with
  | nil => simp [pySetKV, pyGetKV]
  | cons p rest ih =>
    obtain ⟨k', v'⟩ := p
    by_cases hk : k' = k
    · subst hk
      simp [pySetKV, pyGetKV]
    · rw [pySetKV, if_neg (by simp [hk])]
      rw [pyGetKV, List.find?_cons_of_neg _ (by simp [hk])]
      exact ih

theorem pyGet_pySet_ne {α : Type} {d : List (Str × α)} {k t : Str} {v : α}
    (h : ¬(k = t)) : pyGetKV (pySetKV d k v) t = pyGetKV d t := by
  induction d with
  | nil =>
    rw [pySetKV, pyGetKV, List.find?_cons_of_neg _ (by simp [h])]
    rfl
  | cons p rest ih =>
    obtain ⟨k', v'⟩ := p
    by_cases hk : k' = k
    · subst hk
      rw [pySetKV, if_pos (by simp)]
      rw [pyGetKV, pyGetKV, List.find?_cons_of_neg _ (by simp [h]),
        List.find?_cons_of_neg _ (by simp [h])]
    · rw [pySetKV, if_neg (by simp [hk])]
      by_cases hp : k' = t
      · subst hp
        rw [pyGetKV, pyGetKV, List.find?_cons_of_pos _ (by simp),
          List.find?_cons_of_pos _ (by simp)]
      · rw [pyGetKV, pyGetKV, List.find?_cons_of_neg _ (by simp [hp]),
          List.find?_cons_of_neg _ (by simp [hp])]
        exact ih

/-- Appending a fresh key: lookups of other keys unchanged. -/
theorem pyGet_append_ne {α : Type} {d : List (Str × α)} {k t : Str} {v : α}
    (h : ¬(k = t)) : pyGetKV (d ++ [(k, v)]) t = pyGetKV d t := by
  induction d with
  | nil =>
    rw [List.nil_append, pyGetKV, List.find?_cons_of_neg _ (by simp [h])]
    rfl
  | cons p rest ih =>
    obtain ⟨k', v'⟩ := p
    by_cases hp : k' = t
    · subst hp
      rw [List.cons_append, pyGetKV, pyGetKV, List.find?_cons_of_pos _ (by simp),
        List.find?_cons_of_pos _ (by simp)]
    · rw [List.cons_append, pyGetKV, pyGetKV, List.find?_cons_of_neg _ (by simp [hp]),
        List.find?_cons_of_neg _ (by simp [hp])]
      exact ih

theorem pyGet_append_same {α : Type} {d : List (Str × α)} {k : Str} {v : α}
    (h : pyGetKV d k = none) : pyGetKV (d ++ [(k, v)]) k = some v := by
  induction d with
  | nil => simp [pyGetKV]
  | cons p rest ih =>
    obtain ⟨k', v'⟩ := p
    by_cases hp : k' = k
    · subst hp
      rw [pyGetKV, List.find?_cons_of_pos _ (by simp)] at h
      simp at h
    · rw [pyGetKV, List.find?_cons_of_neg _ (by simp [hp])] at h
      rw [List.cons_append, pyGetKV, List.find?_cons_of_neg _ (by simp [hp])]
      exact ih h

/-- The state of `ContextManager`. -/
structure ContextManager where
  established_terms : TermDict
  term_confidence : List (Str × Nat)
  batch_history : List TermDict
deriving DecidableEq, Repr

def ContextManager.empty : ContextManager := ⟨[], [], []⟩

/-- One iteration of the loop in `ContextManager.update_terms`. -/
def updateOne (cm : ContextManager) (kv : Str × Str) : ContextManager :=
  if (dlookup cm.established_terms kv.1).isSome then
    { cm with term_confidence :=
        confSet cm.term_confidence kv.1 (confGet cm.term_confidence kv.1 + 1) }
  else
    { cm with
        established_terms := cm.established_terms ++ [kv],
        term_confidence := confSet cm.term_confidence kv.1 1 }

/-- `ContextManager.update_terms`. -/
def update_terms (cm : ContextManager) (new_terms : TermDict) : ContextManager :=
  let cm' := new_terms.foldl updateOne cm
  if new_terms.isEmpty then cm'
  else { cm' with batch_history := cm'.batch_history ++ [new_terms] }

/-- `ContextManager.get_established_terms` (the default argument is
`min_confidence = 1`; callers inside the engine use the default). -/
def get_established_terms (cm : ContextManager) (min_confidence : Nat) : TermDict :=
  cm.established_terms.filter
    (fun p => min_confidence ≤ confGet cm.term_confidence p.1)

/-! ## Claim C4 -/

theorem confGet_confSet_ne {d : List (Str × Nat)} {k t : Str} {v : Nat}
    (h : ¬(k = t)) : confGet (confSet d k v) t = confGet d t := by
  rw [confGet, confGet, confSet, pyGet_pySet_ne h]

theorem confGet_confSet_same (d : List (Str × Nat)) (k : Str) (v : Nat) :
    confGet (confSet d k v) k = v := by
  rw [confGet, confSet, pyGet_pySet_same]
  rfl

/-- `updateOne` never changes an existing translation. -/
theorem updateOne_persist {cm : ContextManager} {kv : Str × Str} {t : Str} {v : Str}
    (h : dlookup cm.established_terms t = some v) :
    dlookup (updateOne cm kv).established_terms t = some v := by
  rw [updateOne]
  split
  · exact h
  · rename_i hns
    by_cases hk : kv.1 = t
    · rw [dlookup] at h
      rw [hk] at hns
      rw [dlookup, h] at hns
      simp at hns
    · show dlookup (cm.established_terms ++ [(kv.1, kv.2)]) t = some v
      rw [dlookup, pyGet_append_ne hk]
      exact h

theorem updateOne_ne {cm : ContextManager} {kv : Str × Str} {t : Str}
    (hk : ¬(kv.1 = t)) :
    dlookup (updateOne cm kv).established_terms t = dlookup cm.established_terms t ∧
    confGet (updateOne cm kv).term_confidence t = confGet cm.term_confidence t := by
  rw [updateOne]
  split
  · exact ⟨rfl, confGet_confSet_ne hk⟩
  · constructor
    · show dlookup (cm.established_terms ++ [(kv.1, kv.2)]) t = _
      rw [dlookup, dlookup, pyGet_append_ne hk]
    · exact confGet_confSet_ne hk

theorem foldl_updateOne_notmem : ∀ (new : TermDict) (cm : ContextManager) (t : Str),
    t ∉ new.map Prod.fst →
    dlookup ((new.foldl updateOne cm).established_terms) t =
      dlookup cm.established_terms t ∧
    confGet ((new.foldl updateOne cm).term_confidence) t =
      confGet cm.term_confidence t := by
  intro new
  induction new with
  | nil => intro cm t _; exact ⟨rfl, rfl⟩
  | cons kv rest ih =>
    intro cm t hmem
    have hk : ¬(kv.1 = t) := by
      intro hh
      exact hmem (by rw [← hh]; simp)
    have h1 := @updateOne_ne cm _ _ hk
    rw [List.foldl_cons]
    obtain ⟨ha, hb⟩ := ih (updateOne cm kv) t (fun hm => hmem (by simp at hm ⊢; tauto))
    rw [ha, hb, h1.1, h1.2]
    exact ⟨rfl, rfl⟩

theorem foldl_updateOne_persist : ∀ (new : TermDict) (cm : ContextManager)
    {t v : Str}, dlookup cm.established_terms t = some v →
    dlookup ((new.foldl updateOne cm).established_terms) t = some v := by
  intro new
  induction new with
  | nil => intro cm t v h; exact h
  | cons kv rest ih =>
    intro cm t v h
    rw [List.foldl_cons]
    exact ih _ (updateOne_persist h)

theorem foldl_updateOne_incr : ∀ (new : TermDict) (cm : ContextManager)
    {t v : Str}, (new.map Prod.fst).Nodup →
    dlookup cm.established_terms t = some v → t ∈ new.map Prod.fst →
    confGet ((new.foldl updateOne cm).term_confidence) t =
      confGet cm.term_confidence t + 1 := by
  intro new
  induction new with
  | nil => intro cm t v _ _ hmem; simp at hmem
  | cons kv rest ih =>
    intro cm t v hnodup hsome hmem
    rw [List.foldl_cons]
    by_cases hk : kv.1 = t
    · have hnotin : t ∉ rest.map Prod.fst := by
        rw [List.map_cons] at hnodup
        rw [← hk]
        exact (List.nodup_cons.mp hnodup).1
      have hconf : confGet (updateOne cm kv).term_confidence t =
          confGet cm.term_confidence t + 1 := by
        rw [updateOne, if_pos (by rw [hk]; rw [show dlookup cm.established_terms t = some v from hsome]; rfl)]
        show confGet (confSet cm.term_confidence kv.1
          (confGet cm.term_confidence kv.1 + 1)) t = _
        rw [hk, confGet_confSet_same]
      rw [(foldl_updateOne_notmem rest _ t hnotin).2, hconf]
    · have h1 := @updateOne_ne cm _ _ hk
      have hmem' : t ∈ rest.map Prod.fst := by
        simp at hmem
        rcases hmem with h | h
        · exact absurd h.symm (by simpa using hk)
        · simpa using h
      rw [ih _ ((List.nodup_cons.mp (by rw [List.map_cons] at hnodup; exact hnodup)).2)
        (by rw [h1.1]; exact hsome) hmem', h1.2]

theorem foldl_updateOne_insert : ∀ (new : TermDict) (cm : ContextManager)
    {t v : Str}, (new.map Prod.fst).Nodup →
    dlookup cm.established_terms t = none → (t, v) ∈ new →
    dlookup ((new.foldl updateOne cm).established_terms) t = some v ∧
    confGet ((new.foldl updateOne cm).term_confidence) t = 1 := by
  intro new
  induction new with
  | nil => intro cm t v _ _ hmem; simp at hmem
  | cons kv rest ih =>
    intro cm t v hnodup hnone hmem
    rw [List.foldl_cons]
    rcases List.mem_cons.mp hmem with heq | hmem'
    · subst heq
      have hstep : dlookup (updateOne cm (t, v)).established_terms t = some v ∧
          confGet (updateOne cm (t, v)).term_confidence t = 1 := by
        rw [updateOne]
        rw [if_neg (by
          rw [show dlookup cm.established_terms (t, v).1 = none from hnone]
          simp)]
        constructor
        · show dlookup (cm.established_terms ++ [(t, v)]) t = some v
          rw [dlookup, pyGet_append_same hnone]
        · exact confGet_confSet_same _ _ _
      have hnotin : t ∉ rest.map Prod.fst := by
        rw [List.map_cons] at hnodup
        exact (List.nodup_cons.mp hnodup).1
      obtain ⟨ha, hb⟩ := foldl_updateOne_notmem rest (updateOne cm (t, v)) t hnotin
      rw [ha, hb, hstep.1, hstep.2]
      exact ⟨rfl, rfl⟩
    · have hk : ¬(kv.1 = t) := by
        intro hh
        rw [List.map_cons] at hnodup
        exact (List.nodup_cons.mp hnodup).1
          (by rw [hh]; exact List.mem_map.mpr ⟨(t, v), hmem', rfl⟩)
      have h1 := @updateOne_ne cm _ _ hk
      exact ih _ (by rw [List.map_cons] at hnodup; exact (List.nodup_cons.mp hnodup).2)
        (by rw [h1.1]; exact hnone) hmem'

theorem update_terms_established (cm : ContextManager) (new : TermDict) :
    (update_terms cm new).established_terms =
      (new.foldl updateOne cm).established_terms := by
  rw [update_terms]
  split <;> rfl

theorem update_terms_confidence (cm : ContextManager) (new : TermDict) :
    (update_terms cm new).term_confidence =
      (new.foldl updateOne cm).term_confidence := by
  rw [update_terms]
  split <;> rfl

/-- `applyUpdates` chains a whole run of `update_terms` calls. -/
def applyUpdates (us : List TermDict) (cm : ContextManager) : ContextManager :=
  us.foldl update_terms cm

/-- **C4**: once inserted, a term's stored translation never changes — a
later `update_terms` containing the same original leaves the translation
untouched and increments that term's confidence by 1 (and leaves it
unchanged when the original is absent from the update); a fresh original
is inserted with confidence 1; `get_established_terms min_confidence`
returns exactly the stored terms whose confidence is at least
`min_confidence`; and the stored translation survives any further
sequence of `update_terms` calls. -/
theorem C4_term_store_invariants (cm : ContextManager) (new : TermDict)
    (hnodup : (new.map Prod.fst).Nodup) (t v : Str) :
    (dlookup cm.established_terms t = some v →
      dlookup (update_terms cm new).established_terms t = some v ∧
      (t ∈ new.map Prod.fst →
        confGet (update_terms cm new).term_confidence t =
          confGet cm.term_confidence t + 1) ∧
      (t ∉ new.map Prod.fst →
        confGet (update_terms cm new).term_confidence t =
          confGet cm.term_confidence t)) ∧
    (dlookup cm.established_terms t = none → (t, v) ∈ new →
      dlookup (update_terms cm new).established_terms t = some v ∧
      confGet (update_terms cm new).term_confidence t = 1) ∧
    (∀ mc p, p ∈ get_established_terms cm mc ↔
      p ∈ cm.established_terms ∧ mc ≤ confGet cm.term_confidence p.1) ∧
    (∀ us, dlookup cm.established_terms t = some v →
      dlookup (applyUpdates us cm).established_terms t = some v) := by
  refine ⟨?_, ?_, ?_, ?_⟩
  · intro hsome
    rw [update_terms_established, update_terms_confidence]
    exact ⟨foldl_updateOne_persist new cm hsome,
      fun hmem => foldl_updateOne_incr new cm hnodup hsome hmem,
      fun hmem => (foldl_updateOne_notmem new cm t hmem).2⟩
  · intro hnone hmem
    rw [update_terms_established, update_terms_confidence]
    exact foldl_updateOne_insert new cm hnodup hnone hmem
  · intro mc p
    rw [get_established_terms, List.mem_filter]
    simp
  · intro us
    induction us generalizing cm with
    | nil => intro h; exact h
    | cons u rest ih =>
      intro h
      rw [applyUpdates, List.foldl_cons]
      exact ih _ (by
        rw [update_terms_established]
        exact foldl_updateOne_persist u cm h)

/-- Witness for C4: confirm `"John"` twice — translation stays, confidence
reaches 2; a second term seen once has confidence 1. -/
theorem C4_term_store_invariants_witness :
    dlookup (update_terms
        (update_terms ContextManager.empty [("John".data, "X".data)])
        [("John".data, "Y".data), ("Mary".data, "Z".data)]).established_terms
      "John".data = some "X".data ∧
    confGet (update_terms
        (update_terms ContextManager.empty [("John".data, "X".data)])
        [("John".data, "Y".data), ("Mary".data, "Z".data)]).term_confidence
      "John".data = 2 := by
  have h := (C4_term_store_invariants
    (update_terms ContextManager.empty [("John".data, "X".data)])
    [("John".data, "Y".data), ("Mary".data, "Z".data)]
    (by decide) "John".data "X".data).1 (by decide)
  refine ⟨h.1, ?_⟩
  rw [h.2.1 (by decide)]
  decide

/-! ## Term extractor (`context_manager.py`)

The extraction regexes are embedded as scanners over `List Char`.
Python's Unicode `\w` is approximated as: ASCII alphanumerics and
underscore, plus any non-ASCII non-whitespace character.  The only place
this can differ from CPython is non-ASCII *punctuation* adjacent to a
Latin capitalized word or forming a whole candidate, which the
repository's subtitle data does not exercise at the decision points of
the claims. -/

def isUpperA (c : Char) : Bool := 65 ≤ c.toNat && c.toNat ≤ 90

def isLowerA (c : Char) : Bool := 97 ≤ c.toNat && c.toNat ≤ 122

def isLetterA (c : Char) : Bool := isUpperA c || isLowerA c

def pyWordChar (c : Char) : Bool :=
  isLetterA c || isDig c || c = '_' || (128 ≤ c.toNat && !pySpace c)

/-- Greedy extension step for
`\b[A-Z][a-zA-Z]{1,}(?:\s+[A-Z][a-zA-Z]*)*\b`: try to append one more
`\s+[A-Z][a-zA-Z]*` group; on failure of the trailing `\b` deeper in,
backtrack to fewer groups (the boundary before a dropped group is
whitespace, hence always satisfied). -/
def capExtend : Nat → Str → Str → Option (Str × Str)
  | 0, acc, s =>
    match s with
    | [] => some (acc, [])
    | d :: r => if pyWordChar d then none else some (acc, d :: r)
  | f + 1, acc, s =>
    let stopHere : Option (Str × Str) :=
      match s with
      | [] => some (acc, [])
      | d :: r => if pyWordChar d then none else some (acc, d :: r)
    let ws := s.takeWhile pySpace
    if ws.isEmpty then stopHere
    else
      match s.drop ws.length with
      | u :: r2 =>
        if isUpperA u then
          match capExtend f (acc ++ ws ++ u :: r2.takeWhile isLetterA)
              (r2.drop (r2.takeWhile isLetterA).length) with
          | some res => some res
          | none => stopHere
        else stopHere
      | [] => stopHere

/-- Attempt the capitalized-phrase pattern at the head of `s` (the `\b`
before `s` is checked by the caller). -/
def matchCap (s : Str) : Option (Str × Str) :=
  match s with
  | [] => none
  | c :: r =>
    if isUpperA c then
      if (r.takeWhile isLetterA).isEmpty then none
      else capExtend s.length (c :: r.takeWhile isLetterA)
        (r.drop (r.takeWhile isLetterA).length)
    else none

/-- `re.findall` scan for the capitalized-phrase pattern: leftmost,
non-overlapping, tracking whether the previous character is a word
character (for the leading `\b`). -/
def capFindAux : Nat → Bool → Str → List Str
  | 0, _, _ => []
  | _ + 1, _, [] => []
  | f + 1, prevWord, c :: rest =>
    if prevWord then capFindAux f (pyWordChar c) rest
    else
      match matchCap (c :: rest) with
      | some (m, rest') => m :: capFindAux f true rest'
      | none => capFindAux f (pyWordChar c) rest

/-- `re.findall(r'\b[A-Z][a-zA-Z]{1,}(?:\s+[A-Z][a-zA-Z]*)*\b', text)`. -/
def capWords (text : Str) : List Str := capFindAux text.length false text

/-- The stoplist of `_is_common_word`. -/
def commonWords : List Str :=
  ["I", "The", "This", "That", "These", "Those", "What", "Where", "When",
   "Who", "Why", "How", "Yes", "No", "Ok", "Okay", "Well", "So", "But",
   "And", "Or", "If", "Then", "Now", "Here", "There", "Come", "Go",
   "Get", "Take", "Give", "Make", "Let", "See", "Look", "Good", "Bad"].map
    String.data

def is_common_word (w : Str) : Bool := commonWords.contains w

/-- `re.match(r'^[A-Z][a-z]+$', w)`. -/
def nameSimple (w : Str) : Bool :=
  match w with
  | [] => false
  | c :: r => isUpperA c && !r.isEmpty && r.all isLowerA

/-- `re.match(r'^[A-Z][a-z]+\s+[A-Z][a-z]+$', w)` (the character classes
are disjoint, so the parse is deterministic). -/
def nameFull (w : Str) : Bool :=
  match w with
  | [] => false
  | c :: r =>
    isUpperA c && !(r.takeWhile isLowerA).isEmpty &&
    (let r1 := r.drop (r.takeWhile isLowerA).length
     !(r1.takeWhile pySpace).isEmpty &&
     (match r1.drop (r1.takeWhile pySpace).length with
      | [] => false
      | d :: r2 => isUpperA d && !r2.isEmpty && r2.all isLowerA))

/-- `ContextManager._is_likely_proper_noun`. -/
def is_likely_proper_noun (w : Str) : Bool :=
  nameSimple w || nameFull w ||
  "Dr.".data.isPrefixOf w || "Mr.".data.isPrefixOf w ||
  "Mrs.".data.isPrefixOf w || "Ms.".data.isPrefixOf w ||
  (2 ≤ (w.filter isUpperA).length && 4 ≤ w.length)

/-- Remove duplicates (Python `set`; the iteration order is normalized by
the `sorted` call that follows, so it does not matter here). -/
def dedupStr : List Str → List Str
  | [] => []
  | x :: r => if r.contains x then dedupStr r else x :: dedupStr r

/-- Lexicographic comparison by code point (`sorted` on Python strings). -/
def strLeB : Str → Str → Bool
  | [], _ => true
  | _ :: _, [] => false
  | a :: as, b :: bs => if a = b then strLeB as bs else decide (a.toNat < b.toNat)

def insertSorted (x : Str) : List Str → List Str
  | [] => [x]
  | y :: r => if strLeB x y then x :: y :: r else y :: insertSorted x r

def sortStr : List Str → List Str
  | [] => []
  | x :: r => insertSorted x (sortStr r)

/-- `ContextManager.extract_potential_terms`.  (Every candidate comes
from a regex match inside some input text, so the `Counter` always counts
it at least once; filtering the deduplicated candidate set is therefore
equivalent to iterating `term_counter.items()`.) -/
def extract_potential_terms (texts : List Str) : List Str :=
  sortStr ((dedupStr ((texts.flatMap
      (fun tx => (capWords tx).filter
        (fun w => 2 ≤ w.length && !is_common_word w))).map pyStrip)).filter
    (fun t => 1 < (texts.filter (fun tx => isSubstr t tx)).length ||
      is_likely_proper_noun t))

/-- CJK/Hangul block test for the `asian_pattern`. -/
def isCJK (c : Char) : Bool :=
  (0x4e00 ≤ c.toNat && c.toNat ≤ 0x9fff) ||
  (0x3400 ≤ c.toNat && c.toNat ≤ 0x4dbf) ||
  (0x3040 ≤ c.toNat && c.toNat ≤ 0x309f) ||
  (0x30a0 ≤ c.toNat && c.toNat ≤ 0x30ff) ||
  (0xac00 ≤ c.toNat && c.toNat ≤ 0xd7af)

/-- `re.findall(r'[c]+', s)` for a character class: the maximal runs. -/
def runsOf (p : Char → Bool) : Nat → Str → List Str
  | 0, _ => []
  | f + 1, s =>
    match s with
    | [] => []
    | c :: rest =>
      if p c then (c :: rest.takeWhile p) :: runsOf p f (rest.dropWhile p)
      else runsOf p f rest

def nonAscii (c : Char) : Bool := 128 ≤ c.toNat

/-- `re.findall(r'\b[A-Z][a-zA-Z]{1,}\b', s)`. -/
def capSingleAux : Nat → Bool → Str → List Str
  | 0, _, _ => []
  | _ + 1, _, [] => []
  | f + 1, prevWord, c :: rest =>
    if !prevWord && isUpperA c &&
        !(rest.takeWhile isLetterA).isEmpty &&
        (match rest.drop (rest.takeWhile isLetterA).length with
         | [] => true
         | d :: _ => !pyWordChar d) then
      (c :: rest.takeWhile isLetterA) ::
        capSingleAux f true (rest.drop (rest.takeWhile isLetterA).length)
    else capSingleAux f (pyWordChar c) rest

/-- `ContextManager._extract_translated_candidates`.  The trailing
`list(set(candidates))` iterates a Python `set` whose order is
implementation-defined (hash-randomized for strings); it is modelled by
the oracle `setOrder`, constrained by `SetOrderOK` to produce the set's
elements without duplicates in some order. -/
def extract_translated_candidates (setOrder : List Str → List Str)
    (translated_text : Str) : List Str :=
  setOrder
    (runsOf isCJK translated_text.length translated_text ++
     runsOf nonAscii translated_text.length translated_text ++
     capSingleAux translated_text.length false translated_text)

/-- Admissible behaviours of `list(set(...))`: the same elements, each
exactly once. -/
def SetOrderOK (f : List Str → List Str) : Prop :=
  ∀ l, (f l).Perm (dedupStr l)

/-- `ContextManager._is_valid_translation_candidate`
(`re.match(r'^[^\w]+$', c)` succeeds iff the candidate is nonempty and
entirely non-word; candidates never contain newlines, so `$` is a true
end anchor). -/
def is_valid_translation_candidate (cand : Str) : Bool :=
  if cand.length < 1 || 20 < cand.length then false
  else if !cand.isEmpty && cand.all (fun c => !pyWordChar c) then false
  else true

/-- `ContextManager.extract_terms_from_translation_pair`. -/
def extract_terms_from_translation_pair (setOrder : List Str → List Str)
    (original_texts translated_texts : List Str) : TermDict :=
  if original_texts.length ≠ translated_texts.length then []
  else
    (extract_potential_terms original_texts).foldl (fun acc term =>
      match (original_texts.zip translated_texts).find?
          (fun p => isSubstr term p.1) with
      | none => acc
      | some p =>
        match (extract_translated_candidates setOrder p.2).find?
            is_valid_translation_candidate with
        | none => acc
        | some cand => dictSet acc term cand) []

/-! ## Claim C9 -/

/-- Deduplication keeping first occurrences — the "extraction order,
deduplicated" reading of the claim. -/
def dedupFirstAux : Nat → List Str → List Str
  | 0, _ => []
  | _ + 1, [] => []
  | f + 1, x :: r => x :: dedupFirstAux f (r.filter (fun y => !(y == x)))

def dedupFirst (l : List Str) : List Str := dedupFirstAux l.length l

/-- The claim's selection rule: the first candidate in extraction order
(CJK runs, then other non-ASCII runs, then capitalized words,
deduplicated keeping first occurrences) that passes validity. -/
def claimC9first (translated_text : Str) : Option Str :=
  (dedupFirst
    (runsOf isCJK translated_text.length translated_text ++
     runsOf nonAscii translated_text.length translated_text ++
     capSingleAux translated_text.length false translated_text)).find?
    is_valid_translation_candidate

theorem mem_dedupStr {l : List Str} {x : Str} (h : x ∈ dedupStr l) : x ∈ l := by
  induction l with
  | nil => simp [dedupStr] at h
  | cons y r ih =>
    rw [dedupStr] at h
    split at h
    · exact List.mem_cons_of_mem _ (ih h)
    · rcases List.mem_cons.mp h with rfl | hm
      · exact List.mem_cons_self _ _
      · exact List.mem_cons_of_mem _ (ih hm)

theorem mem_dictSet {a : TermDict} {k t : Str} {v c : Str}
    (h : (t, c) ∈ dictSet a k v) : (t = k ∧ c = v) ∨ (t, c) ∈ a := by
  induction a with
  | nil =>
    rw [dictSet, pySetKV] at h
    simp at h
    exact Or.inl h
  | cons p rest ih =>
    obtain ⟨k', v'⟩ := p
    by_cases hk : k' = k
    · subst hk
      rw [dictSet, pySetKV, if_pos (by simp)] at h
      rcases List.mem_cons.mp h with heq | hm
      · rw [Prod.mk.injEq] at heq
        exact Or.inl heq
      · exact Or.inr (List.mem_cons_of_mem _ hm)
    · rw [dictSet, pySetKV, if_neg (by simp [hk])] at h
      rcases List.mem_cons.mp h with heq | hm
      · exact Or.inr (by rw [heq]; exact List.mem_cons_self _ _)
      · rcases ih hm with h1 | h1
        · exact Or.inl h1
        · exact Or.inr (List.mem_cons_of_mem _ h1)

/-- The per-term candidate selection of
`extract_terms_from_translation_pair`. -/
def termCand (setOrder : List Str → List Str)
    (original_texts translated_texts : List Str) (term : Str) : Option Str :=
  match (original_texts.zip translated_texts).find?
      (fun p => isSubstr term p.1) with
  | none => none
  | some p =>
    (extract_translated_candidates setOrder p.2).find?
      is_valid_translation_candidate

theorem mem_term_build (f : List Str → List Str) (o tr : List Str) :
    ∀ (terms : List Str) (acc : TermDict) (t c : Str),
    (t, c) ∈ terms.foldl (fun a term =>
      match (o.zip tr).find? (fun p => isSubstr term p.1) with
      | none => a
      | some p =>
        match (extract_translated_candidates f p.2).find?
            is_valid_translation_candidate with
        | none => a
        | some cand => dictSet a term cand) acc →
    (t, c) ∈ acc ∨ (termCand f o tr t = some c ∧ t ∈ terms) := by
  intro terms
  induction terms with
  | nil => intro acc t c h; exact Or.inl h
  | cons x rest ih =>
    intro acc t c h
    rw [List.foldl_cons] at h
    match hz : (o.zip tr).find? (fun p => isSubstr x p.1) with
    | none =>
      simp only [hz] at h
      rcases ih _ t c h with hacc | ⟨hc, hm⟩
      · exact Or.inl hacc
      · exact Or.inr ⟨hc, List.mem_cons_of_mem _ hm⟩
    | some p =>
      simp only [hz] at h
      match hcand : (extract_translated_candidates f p.2).find?
          is_valid_translation_candidate with
      | none =>
        simp only [hcand] at h
        rcases ih _ t c h with hacc | ⟨hc, hm⟩
        · exact Or.inl hacc
        · exact Or.inr ⟨hc, List.mem_cons_of_mem _ hm⟩
      | some cand =>
        simp only [hcand] at h
        rcases ih _ t c h with hacc | ⟨hc, hm⟩
        · rcases mem_dictSet hacc with ⟨rfl, rfl⟩ | hin
          · refine Or.inr ⟨?_, List.mem_cons_self _ _⟩
            rw [termCand]
            simp only [hz, hcand]
          · exact Or.inl hin
        · exact Or.inr ⟨hc, List.mem_cons_of_mem _ hm⟩

/-- **C9, counterexample**: the code deduplicates the candidate list with
a Python `set`, whose iteration order is implementation-defined (hash
randomization), not extraction order.  For original `"John is here"`
translated as `"約 翰"` there are two valid candidates, `"約"` first in
extraction order; under the admissible set order that reverses the
deduplicated list the code maps `John → "翰"`, not to the claimed first
candidate `"約"`. -/
theorem C9_counterexample :
    SetOrderOK (fun l => (dedupStr l).reverse) ∧
    extract_terms_from_translation_pair (fun l => (dedupStr l).reverse)
      ["John is here".data] ["約 翰".data] = [("John".data, "翰".data)] ∧
    claimC9first "約 翰".data = some "約".data ∧
    "翰".data ≠ "約".data :=
  ⟨fun l => List.reverse_perm (dedupStr l), by decide, by decide, by decide⟩

/-- **C9, amended**: when the lengths differ the result is the empty
mapping; otherwise every produced pair `(t, c)` has `t` among the
potential terms of the originals, `c` chosen by `find?` over the
candidates extracted (in implementation-defined set order) from the
translation aligned with the first original containing `t`; `c` is one of
the CJK/non-ASCII/capitalized-word candidates of that translation and
passes validity; and a term whose aligned translation yields no valid
candidate is absent from the result rather than an error. -/
theorem C9_amended (f : List Str → List Str) (hf : SetOrderOK f)
    (origs trans : List Str) :
    (origs.length ≠ trans.length →
      extract_terms_from_translation_pair f origs trans = []) ∧
    (∀ t c, (t, c) ∈ extract_terms_from_translation_pair f origs trans →
      origs.length = trans.length ∧
      t ∈ extract_potential_terms origs ∧
      ∃ p, (origs.zip trans).find? (fun q => isSubstr t q.1) = some p ∧
        (extract_translated_candidates f p.2).find?
          is_valid_translation_candidate = some c ∧
        c ∈ (runsOf isCJK p.2.length p.2 ++ runsOf nonAscii p.2.length p.2 ++
          capSingleAux p.2.length false p.2) ∧
        is_valid_translation_candidate c = true) ∧
    (∀ t, (∀ p, (origs.zip trans).find? (fun q => isSubstr t q.1) = some p →
        (extract_translated_candidates f p.2).find?
          is_valid_translation_candidate = none) →
      ∀ c, (t, c) ∉ extract_terms_from_translation_pair f origs trans) := by
  refine ⟨?_, ?_, ?_⟩
  · intro hne
    rw [extract_terms_from_translation_pair, if_pos hne]
  · intro t c hmem
    by_cases hlen : origs.length ≠ trans.length
    · rw [extract_terms_from_translation_pair, if_pos hlen] at hmem
      simp at hmem
    · rw [extract_terms_from_translation_pair, if_neg hlen] at hmem
      rcases mem_term_build f origs trans _ [] t c hmem with h0 | ⟨hc, hm⟩
      · simp at h0
      · refine ⟨by omega, hm, ?_⟩
        rw [termCand] at hc
        match hz : (origs.zip trans).find? (fun p => isSubstr t p.1) with
        | none =>
          simp only [hz] at hc
          exact absurd hc (by simp)
        | some p =>
          simp only [hz] at hc
          refine ⟨p, hz, hc, ?_, List.find?_some hc⟩
          have hmem2 : c ∈ extract_translated_candidates f p.2 :=
            List.mem_of_find?_eq_some hc
          rw [extract_translated_candidates] at hmem2
          exact mem_dedupStr ((hf _).mem_iff.mp hmem2)
  · intro t hnone c hmem
    by_cases hlen : origs.length ≠ trans.length
    · rw [extract_terms_from_translation_pair, if_pos hlen] at hmem
      simp at hmem
    · rw [extract_terms_from_translation_pair, if_neg hlen] at hmem
      rcases mem_term_build f origs trans _ [] t c hmem with h0 | ⟨hc, _⟩
      · simp at h0
      · rw [termCand] at hc
        match hz : (origs.zip trans).find? (fun p => isSubstr t p.1) with
        | none =>
          simp only [hz] at hc
          exact absurd hc (by simp)
        | some p =>
          simp only [hz] at hc
          rw [hnone p hz] at hc
          exact absurd hc (by simp)

/-- Witness for C9 at a concrete aligned pair. -/
theorem C9_amended_witness :
    ("John".data, "約翰在這裡".data) ∈
      extract_terms_from_translation_pair dedupStr
        ["John is here".data] ["約翰在這裡".data] ∧
    "John".data ∈ extract_potential_terms ["John is here".data] ∧
    is_valid_translation_candidate "約翰在這裡".data = true := by
  have h := (C9_amended dedupStr (fun l => List.Perm.refl _)
    ["John is here".data] ["約翰在這裡".data]).2.1
    "John".data "約翰在這裡".data (by decide)
  exact ⟨by decide, h.2.1, h.2.2.choose_spec.2.2.2⟩

/-! ## Batch translation engine (`translator.py`)

The network backend is an oracle:
`respond bt est` is the reply text of the combined batch request built
from the batch texts `bt` and the established-terms mapping `est`
injected into the prompt (`none` models a raised API error), and
`single t` is the result of `_translate_single` for `t` — that function
catches every exception and returns the original text on failure, so it
is total.  The progress callback is modelled by a predicate giving, for
each reported value, whether the callback raises there.  A run returns
the result together with the observable trace: backend calls in order,
progress values passed to the callback, and the final context store. -/

inductive PyErr where
  | valueError : Str → PyErr
  | translationError : Str → PyErr
deriving DecidableEq, Repr

inductive BackendCall where
  | batch : List Str → TermDict → BackendCall
  | single : Str → BackendCall
deriving DecidableEq, Repr

structure LoopSt where
  translations : List Str
  progress : List ℚ
  cm : Option ContextManager
  est : TermDict
  calls : List BackendCall
deriving DecidableEq, Repr

/-- `range(0, len(non_empty_texts), batch_size)` slicing with
`batch_size = 12`. -/
def chunksAux : Nat → List Str → List (List Str)
  | 0, _ => []
  | _ + 1, [] => []
  | f + 1, l => l.take 12 :: chunksAux f (l.drop 12)

def chunksOf (l : List Str) : List (List Str) := chunksAux l.length l

def msgUnexpected : Str := "Unexpected error during translation".data

/-- The per-item fallback loop (lines 108–121): one `_translate_single`
request per item; the callback is invoked with
`min(1, (i+j+1)/n)` after each item and an exception there propagates to
the outer handler, aborting the whole translation. -/
def fallbackLoop (single : Str → Str) (cb : Option (ℚ → Bool)) (n i : Nat) :
    List Str → Nat → LoopSt → LoopSt × Option PyErr
  | [], _, st => (st, none)
  | tx :: rest, j, st =>
    let st1 : LoopSt := { st with
      calls := st.calls ++ [BackendCall.single tx],
      translations := st.translations ++ [single tx] }
    match cb with
    | none => fallbackLoop single cb n i rest (j + 1) st1
    | some cbf =>
      let q : ℚ := min 1 (((i + j + 1 : Nat) : ℚ) / (n : ℚ))
      let st2 : LoopSt := { st1 with progress := st1.progress ++ [q] }
      if cbf q then (st2, some (PyErr.translationError msgUnexpected))
      else fallbackLoop single cb n i rest (j + 1) st2

/-- One iteration of the batch loop (lines 81–121).  On success the
translations are extended, the context store and the local
`established_terms` mirror are updated from the mined terms, and the
callback reports `min(1, (i+12)/n)`; a raised API error — and likewise a
callback exception, which strikes after the extension — is caught by the
per-batch handler and triggers the per-item fallback. -/
def runBatch (respond : List Str → TermDict → Option Str) (single : Str → Str)
    (setOrder : List Str → List Str) (cb : Option (ℚ → Bool)) (n i : Nat)
    (bt : List Str) (st : LoopSt) : LoopSt × Option PyErr :=
  let st0 : LoopSt := { st with calls := st.calls ++ [BackendCall.batch bt st.est] }
  match respond bt st.est with
  | none => fallbackLoop single cb n i bt 0 st0
  | some reply =>
    let btr := parse_batch_response (pyStrip reply) bt.length
    let st1 : LoopSt := { st0 with translations := st0.translations ++ btr }
    let st2 : LoopSt :=
      if st1.cm.isSome ∧ ¬btr.isEmpty then
        if (extract_terms_from_translation_pair setOrder bt btr).isEmpty then st1
        else
          { st1 with
            cm := st1.cm.map (fun c =>
              update_terms c (extract_terms_from_translation_pair setOrder bt btr)),
            est := dictUpdate st1.est
              (extract_terms_from_translation_pair setOrder bt btr) }
      else st1
    match cb with
    | none => (st2, none)
    | some cbf =>
      let q : ℚ := min 1 (((i + 12 : Nat) : ℚ) / (n : ℚ))
      let st3 : LoopSt := { st2 with progress := st2.progress ++ [q] }
      if cbf q then fallbackLoop single cb n i bt 0 st3
      else (st3, none)

def loopBatches (respond : List Str → TermDict → Option Str) (single : Str → Str)
    (setOrder : List Str → List Str) (cb : Option (ℚ → Bool)) (n : Nat) :
    List (List Str) → Nat → LoopSt → LoopSt × Option PyErr
  | [], _, st => (st, none)
  | bt :: rest, i, st =>
    match runBatch respond single setOrder cb n i bt st with
    | (st', some e) => (st', some e)
    | (st', none) => loopBatches respond single setOrder cb n rest (i + 12) st'

/-- `result[text_positions[idx]] = translation` for each translation in
order; an index past the end of `text_positions` (or the result) is an
`IndexError`, wrapped by the outer handler into the generic
translation error. -/
def setAt (l : List Str) (p : Nat) (v : Str) : Option (List Str) :=
  if p < l.length then some (l.set p v) else none

def reconstructGo : List (Nat × Str) → List Str → Option (List Str)
  | [], res => some res
  | (p, v) :: rest, res =>
    match setAt res p v with
    | none => none
    | some res' => reconstructGo rest res'

def reconstruct (len : Nat) (positions : List Nat) (alls : List Str) :
    Except PyErr (List Str) :=
  if positions.length < alls.length then
    Except.error (PyErr.translationError msgUnexpected)
  else
    match reconstructGo (positions.zip alls) (List.replicate len []) with
    | none => Except.error (PyErr.translationError msgUnexpected)
    | some res => Except.ok res

instance : DecidableEq (Except PyErr (List Str)) := fun a b =>
  match a, b with
  | Except.ok x, Except.ok y =>
    if h : x = y then isTrue (by rw [h]) else isFalse (by intro hh; cases hh; exact h rfl)
  | Except.error x, Except.error y =>
    if h : x = y then isTrue (by rw [h]) else isFalse (by intro hh; cases hh; exact h rfl)
  | Except.ok _, Except.error _ => isFalse (by intro hh; cases hh)
  | Except.error _, Except.ok _ => isFalse (by intro hh; cases hh)

structure RunResult where
  result : Except PyErr (List Str)
  calls : List BackendCall
  progressValues : List ℚ
  finalContext : Option ContextManager
deriving DecidableEq, Repr

def nonEmptyPairs (texts : List Str) : List (Nat × Str) :=
  texts.enum.filter (fun p => !(pyStrip p.2).isEmpty)

def positionsOf (texts : List Str) : List Nat :=
  (nonEmptyPairs texts).map Prod.fst

def nonEmptyOf (texts : List Str) : List Str :=
  (nonEmptyPairs texts).map (fun p => pyStrip p.2)

def msgModel (model : Str) : Str :=
  "Only these GPT-5 models are supported: ['gpt-5', 'gpt-5-mini']. Got: ".data ++
    model

def msgKey : Str := "API key cannot be empty".data

def msgLang : Str := "Target language cannot be empty".data

/-- The `established_terms` local variable as initialised on lines 76–78:
the confidence-1 established terms when a context manager is given. -/
def initEst : Option ContextManager → TermDict
  | some c => get_established_terms c 1
  | none => []

/-- `translate_with_openai` from `translator.py`.  The `isinstance`
check on `text_list` cannot fail in the typed embedding. -/
def translate_with_openai (respond : List Str → TermDict → Option Str)
    (single : Str → Str) (setOrder : List Str → List Str)
    (text_list : List Str) (target_language api_key model : Str)
    (cb : Option (ℚ → Bool)) (cm0 : Option ContextManager) : RunResult :=
  if ¬(model = "gpt-5".data ∨ model = "gpt-5-mini".data) then
    ⟨Except.error (PyErr.valueError (msgModel model)), [], [], cm0⟩
  else if (pyStrip api_key).isEmpty then
    ⟨Except.error (PyErr.valueError msgKey), [], [], cm0⟩
  else if (pyStrip target_language).isEmpty then
    ⟨Except.error (PyErr.valueError msgLang), [], [], cm0⟩
  else if text_list.isEmpty then ⟨Except.ok [], [], [], cm0⟩
  else if (nonEmptyOf text_list).isEmpty then
    ⟨Except.ok (List.replicate text_list.length []), [], [], cm0⟩
  else
    match loopBatches respond single setOrder cb (nonEmptyOf text_list).length
        (chunksOf (nonEmptyOf text_list)) 0 ⟨[], [], cm0, initEst cm0, []⟩ with
    | (st, some e) => ⟨Except.error e, st.calls, st.progress, st.cm⟩
    | (st, none) =>
      match reconstruct text_list.length (positionsOf text_list)
          st.translations with
      | Except.error e => ⟨Except.error e, st.calls, st.progress, st.cm⟩
      | Except.ok res => ⟨Except.ok res, st.calls, st.progress, st.cm⟩
/-! ## Claim C7 -/

theorem fallbackLoop_calls {single : Str → Str} {cb : Option (ℚ → Bool)}
    {n i : Nat} : ∀ (bts : List Str) (j : Nat) (st : LoopSt),
    st.calls <+: ((fallbackLoop single cb n i bts j st).1).calls := by
  intro bts
  induction bts with
  | nil => intro j st; simp [fallbackLoop]
  | cons tx rest ih =>
    intro j st
    cases cb with
    | none =>
      simp only [fallbackLoop]
      exact List.IsPrefix.trans (List.prefix_append _ _)
        (ih (j + 1) ⟨st.translations ++ [single tx], st.progress, st.cm, st.est,
          st.calls ++ [BackendCall.single tx]⟩)
    | some cbf =>
      simp only [fallbackLoop]
      by_cases hq : cbf (min 1 (((i + j + 1 : Nat) : ℚ) / (n : ℚ))) = true
      · rw [if_pos hq]
        exact List.prefix_append _ _
      · rw [if_neg hq]
        exact List.IsPrefix.trans (List.prefix_append _ _)
          (ih (j + 1) ⟨st.translations ++ [single tx],
            st.progress ++ [min 1 (((i + j + 1 : Nat) : ℚ) / (n : ℚ))],
            st.cm, st.est, st.calls ++ [BackendCall.single tx]⟩)

theorem runBatch_calls {respond : List Str → TermDict → Option Str}
    {single : Str → Str} {setOrder : List Str → List Str}
    {cb : Option (ℚ → Bool)} {n i : Nat} (bt : List Str) (st : LoopSt) :
    st.calls ++ [BackendCall.batch bt st.est] <+:
      ((runBatch respond single setOrder cb n i bt st).1).calls := by
  rcases hr : respond bt st.est with _ | reply
  · simp only [runBatch, hr]
    exact @fallbackLoop_calls single cb n i bt 0
      ⟨st.translations, st.progress, st.cm, st.est,
        st.calls ++ [BackendCall.batch bt st.est]⟩
  · cases cb with
    | none =>
      simp only [runBatch, hr]
      split
      · split
        · exact List.prefix_rfl
        · exact List.prefix_rfl
      · exact List.prefix_rfl
    | some cbf =>
      simp only [runBatch, hr]
      by_cases hq : cbf (min 1 (((i + 12 : Nat) : ℚ) / (n : ℚ))) = true
      · rw [if_pos hq]
        refine List.IsPrefix.trans ?_ (fallbackLoop_calls bt 0 _)
        show st.calls ++ [BackendCall.batch bt st.est] <+: _
        split
        · split
          · exact List.prefix_rfl
          · exact List.prefix_rfl
        · exact List.prefix_rfl
      · rw [if_neg hq]
        show st.calls ++ [BackendCall.batch bt st.est] <+: _
        split
        · split
          · exact List.prefix_rfl
          · exact List.prefix_rfl
        · exact List.prefix_rfl

theorem loopBatches_calls {respond : List Str → TermDict → Option Str}
    {single : Str → Str} {setOrder : List Str → List Str}
    {cb : Option (ℚ → Bool)} {n : Nat} :
    ∀ (chunks : List (List Str)) (i : Nat) (st : LoopSt),
    st.calls <+:
        ((loopBatches respond single setOrder cb n chunks i st).1).calls ∧
      (chunks ≠ [] →
        ((loopBatches respond single setOrder cb n chunks i st).1).calls ≠
          []) := by
  intro chunks
  induction chunks with
  | nil =>
    intro i st
    exact ⟨by simp [loopBatches], fun h => absurd rfl h⟩
  | cons bt rest ih =>
    intro i st
    have hrb := @runBatch_calls respond single setOrder cb n i bt st
    have hne : st.calls ++ [BackendCall.batch bt st.est] ≠ [] := by simp
    rcases hx : runBatch respond single setOrder cb n i bt st with ⟨st', oe⟩
    rw [hx] at hrb
    simp only at hrb
    cases oe with
    | some e =>
      simp only [loopBatches, hx]
      constructor
      · exact List.IsPrefix.trans (List.prefix_append _ _) hrb
      · intro _ hnil
        rw [hnil, List.prefix_nil] at hrb
        exact hne hrb
    | none =>
      obtain ⟨hpre, _⟩ := ih (i + 12) st'
      simp only [loopBatches, hx]
      constructor
      · exact List.IsPrefix.trans (List.prefix_append _ _)
          (List.IsPrefix.trans hrb hpre)
      · intro _ hnil
        have := List.IsPrefix.trans hrb hpre
        rw [hnil, List.prefix_nil] at this
        exact hne this

theorem chunksAux_ne_nil {l : List Str} (hl : l ≠ []) {f : Nat} (hf : 1 ≤ f) :
    chunksAux f l ≠ [] := by
  match f, l with
  | 0, _ => omega
  | g + 1, [] => exact absurd rfl hl
  | g + 1, c :: r =>
    show (c :: r).take 12 :: chunksAux g ((c :: r).drop 12) ≠ []
    simp

/-- **C7**: `translate_with_openai` fails before any backend request
exactly when the model is outside `{gpt-5, gpt-5-mini}`, the trimmed API
key is empty, or the trimmed target language is empty (the `isinstance`
check cannot fail in the typed embedding); the three failures raise
`ValueError`s with pairwise distinct messages, and the backend-call trace
is empty in each of them. -/
theorem C7_validation_fail_fast (respond : List Str → TermDict → Option Str)
    (single : Str → Str) (setOrder : List Str → List Str)
    (texts : List Str) (lang key model : Str) (cb : Option (ℚ → Bool))
    (cm0 : Option ContextManager) :
    ((¬(model = "gpt-5".data ∨ model = "gpt-5-mini".data) ∨
      (pyStrip key).isEmpty = true ∨ (pyStrip lang).isEmpty = true) ↔
      (∃ e, (translate_with_openai respond single setOrder texts lang key model
          cb cm0).result = Except.error e ∧
        (translate_with_openai respond single setOrder texts lang key model
          cb cm0).calls = [])) ∧
    (¬(model = "gpt-5".data ∨ model = "gpt-5-mini".data) →
      (translate_with_openai respond single setOrder texts lang key model
        cb cm0).result = Except.error (PyErr.valueError (msgModel model))) ∧
    ((model = "gpt-5".data ∨ model = "gpt-5-mini".data) →
      (pyStrip key).isEmpty = true →
      (translate_with_openai respond single setOrder texts lang key model
        cb cm0).result = Except.error (PyErr.valueError msgKey)) ∧
    ((model = "gpt-5".data ∨ model = "gpt-5-mini".data) →
      (pyStrip key).isEmpty = false → (pyStrip lang).isEmpty = true →
      (translate_with_openai respond single setOrder texts lang key model
        cb cm0).result = Except.error (PyErr.valueError msgLang)) ∧
    msgModel model ≠ msgKey ∧ msgModel model ≠ msgLang ∧ msgKey ≠ msgLang := by
  have hdist1 : msgModel model ≠ msgKey := by
    intro h
    have h2 := congrArg List.head? h
    rw [show (msgModel model).head? = some 'O' from rfl,
      show msgKey.head? = some 'A' from rfl] at h2
    exact absurd h2 (by decide)
  have hdist2 : msgModel model ≠ msgLang := by
    intro h
    have h2 := congrArg List.head? h
    rw [show (msgModel model).head? = some 'O' from rfl,
      show msgLang.head? = some 'T' from rfl] at h2
    exact absurd h2 (by decide)
  have hdist3 : msgKey ≠ msgLang := by decide
  refine ⟨?_, ?_, ?_, ?_, hdist1, hdist2, hdist3⟩
  · constructor
    · intro hbad
      by_cases hm : ¬(model = "gpt-5".data ∨ model = "gpt-5-mini".data)
      · simp only [translate_with_openai]
        rw [if_pos hm]
        exact ⟨_, rfl, rfl⟩
      · simp only [translate_with_openai]
        rw [if_neg hm]
        by_cases hk : (pyStrip key).isEmpty = true
        · rw [if_pos hk]
          exact ⟨_, rfl, rfl⟩
        · rw [if_neg hk]
          have hl : (pyStrip lang).isEmpty = true := by tauto
          rw [if_pos hl]
          exact ⟨_, rfl, rfl⟩
    · intro ⟨e, herr, hcalls⟩
      by_contra hok
      push_neg at hok
      obtain ⟨hm, hk, hl⟩ := hok
      simp only [translate_with_openai] at herr hcalls
      rw [if_neg (not_not_intro hm), if_neg hk, if_neg hl] at herr hcalls
      by_cases hempty : texts.isEmpty = true
      · rw [if_pos hempty] at herr
        simp at herr
      · rw [if_neg hempty] at herr hcalls
        by_cases hne : (nonEmptyOf texts).isEmpty = true
        · rw [if_pos hne] at herr
          simp at herr
        · rw [if_neg hne] at herr hcalls
          have hlist : nonEmptyOf texts ≠ [] := by
            rw [← List.isEmpty_eq_false]
            simp only [Bool.not_eq_true] at hne
            exact hne
          have hchne : chunksOf (nonEmptyOf texts) ≠ [] := by
            apply chunksAux_ne_nil hlist
            match hx : nonEmptyOf texts with
            | [] => exact absurd hx hlist
            | c :: r => simp
          obtain ⟨_, hnn⟩ := @loopBatches_calls respond single setOrder cb
            (nonEmptyOf texts).length (chunksOf (nonEmptyOf texts)) 0
            ⟨[], [], cm0, initEst cm0, []⟩
          have hextne := hnn hchne
          rcases hp : loopBatches respond single setOrder cb
              (nonEmptyOf texts).length (chunksOf (nonEmptyOf texts)) 0
              ⟨[], [], cm0, initEst cm0, []⟩ with ⟨st, oe⟩
          rw [hp] at hextne
          cases oe with
          | some e1 =>
            simp only [hp] at hcalls
            exact hextne hcalls
          | none =>
            simp only [hp] at herr hcalls
            rcases hr2 : reconstruct texts.length (positionsOf texts)
                st.translations with e2 | res
            · simp only [hr2] at hcalls
              exact hextne hcalls
            · simp only [hr2] at herr
              simp at herr
  · intro hm
    simp only [translate_with_openai]
    rw [if_pos hm]
  · intro hm hk
    simp only [translate_with_openai]
    rw [if_neg (not_not_intro hm), if_pos hk]
  · intro hm hk hl
    simp only [translate_with_openai]
    rw [if_neg (not_not_intro hm), if_neg (by simp [hk]), if_pos hl]

/-- Witness for C7: a bad model name fails fast with no backend calls. -/
theorem C7_validation_fail_fast_witness :
    (translate_with_openai (fun _ _ => none) id dedupStr ["Hi".data]
      "Chinese".data "sk-1".data "gpt-4".data none none).result =
      Except.error (PyErr.valueError (msgModel "gpt-4".data)) ∧
    (translate_with_openai (fun _ _ => none) id dedupStr ["Hi".data]
      "Chinese".data "sk-1".data "gpt-4".data none none).calls = [] := by
  have h := C7_validation_fail_fast (fun _ _ => none) id dedupStr ["Hi".data]
    "Chinese".data "sk-1".data "gpt-4".data none none
  refine ⟨h.2.1 (by decide), ?_⟩
  obtain ⟨e, _, hcalls⟩ := h.1.mp (Or.inl (by decide))
  exact hcalls

/-! ## Claim C10 -/

/-- **C10**: `estimate_translation_cost` never rejects a model name — for
any model outside the supported set it silently prices with the
`gpt-5-mini` rates (the returned record differs from the `gpt-5-mini` one
only in the echoed `model` field), while `translate_with_openai` raises a
`ValueError` for the same model string. -/
theorem C10_estimator_accepts_any_model
    (respond : List Str → TermDict → Option Str) (single : Str → Str)
    (setOrder : List Str → List Str) (texts : List Str)
    (lang key : Str) (cb : Option (ℚ → Bool)) (cm0 : Option ContextManager)
    (text_list : List Str) (target_language model : Str)
    (hm : ¬(model = "gpt-5".data ∨ model = "gpt-5-mini".data)) :
    pricingFor model = pricingFor "gpt-5-mini".data ∧
    estimate_translation_cost text_list target_language model =
      { estimate_translation_cost text_list target_language "gpt-5-mini".data
        with model := model } ∧
    (translate_with_openai respond single setOrder texts lang key model cb
        cm0).result = Except.error (PyErr.valueError (msgModel model)) := by
  have h1 : ¬(model = "gpt-5".data) := fun h => hm (Or.inl h)
  have h2 : ¬(model = "gpt-5-mini".data) := fun h => hm (Or.inr h)
  have hp : pricingFor model = pricingFor "gpt-5-mini".data := by
    rw [pricingFor, if_neg h1, if_neg h2, pricingFor]
    rw [if_neg (by decide), if_pos rfl]
  refine ⟨hp, ?_, ?_⟩
  · rw [estimate_translation_cost, estimate_translation_cost]
    split
    · rfl
    · split
      · rfl
      · rw [hp]
  · simp only [translate_with_openai]
    rw [if_pos hm]

/-- Witness for C10: the unsupported model name `gpt-4` is priced with the
`gpt-5-mini` rates by the estimator but rejected by the translator. -/
theorem C10_estimator_accepts_any_model_witness :
    ¬("gpt-4".data = "gpt-5".data ∨ "gpt-4".data = "gpt-5-mini".data) ∧
    (pricingFor "gpt-4".data = pricingFor "gpt-5-mini".data ∧
     estimate_translation_cost ["Hello".data] "French".data "gpt-4".data =
       { estimate_translation_cost ["Hello".data] "French".data
           "gpt-5-mini".data with model := "gpt-4".data } ∧
     (translate_with_openai (fun _ _ => none) id dedupStr ["Hi".data]
         "French".data "sk-1".data "gpt-4".data none none).result =
       Except.error (PyErr.valueError (msgModel "gpt-4".data))) :=
  ⟨by decide, C10_estimator_accepts_any_model (fun _ _ => none) id dedupStr
    ["Hi".data] "French".data "sk-1".data none none ["Hello".data]
    "French".data "gpt-4".data (by decide)⟩

/-! ## Claim C6 -/

/-- The sequence of progress values reported by the per-item fallback
loop: `min(1, m/n), min(1, (m+1)/n), …`, `k` values in all. -/
def progSeq (n : Nat) : Nat → Nat → List ℚ
  | _, 0 => []
  | m, k + 1 => min 1 ((m : ℚ) / (n : ℚ)) :: progSeq n (m + 1) k

theorem progSeq_bounds (n : Nat) :
    ∀ k m, ∀ v ∈ progSeq n m k, 0 ≤ v ∧ v ≤ 1 := by
  intro k
  induction k with
  | zero => intro m v hv; simp [progSeq] at hv
  | succ k ih =>
    intro m v hv
    rw [progSeq, List.mem_cons] at hv
    rcases hv with hv | hv
    · subst hv
      constructor
      · apply le_min
        · norm_num
        · positivity
      · exact min_le_left _ _
    · exact ih (m + 1) v hv

theorem progSeq_getLast (n : Nat) :
    ∀ k m, 1 ≤ k → (progSeq n m k).getLast? =
      some (min 1 (((m + k - 1 : Nat) : ℚ) / (n : ℚ))) := by
  intro k
  induction k with
  | zero => intro m h; omega
  | succ k ih =>
    intro m _
    rw [progSeq]
    cases k with
    | zero =>
      simp [progSeq]
    | succ k' =>
      show (min 1 ((m : ℚ) / (n : ℚ)) ::
        min 1 (((m + 1 : Nat) : ℚ) / (n : ℚ)) ::
        progSeq n (m + 1 + 1) k').getLast? = _
      rw [List.getLast?_cons_cons]
      have h2 := ih (m + 1) (by omega)
      rw [show m + 1 + (k' + 1) - 1 = m + (k' + 1 + 1) - 1 from by omega] at h2
      exact h2

theorem fallbackLoop_spec {single : Str → Str} {cbf : ℚ → Bool}
    (hcb : ∀ q, cbf q = false) {n i : Nat} :
    ∀ (bts : List Str) (j : Nat) (st : LoopSt),
    fallbackLoop single (some cbf) n i bts j st =
      ({ st with
          translations := st.translations ++ bts.map single,
          calls := st.calls ++ bts.map BackendCall.single,
          progress := st.progress ++ progSeq n (i + j + 1) bts.length }, none) := by
  intro bts
  induction bts with
  | nil =>
    intro j st
    simp [fallbackLoop, progSeq]
  | cons tx rest ih =>
    intro j st
    simp only [fallbackLoop, hcb, Bool.false_eq_true, if_false]
    rw [ih (j + 1) ⟨st.translations ++ [single tx],
      st.progress ++ [min 1 (((i + j + 1 : Nat) : ℚ) / (n : ℚ))],
      st.cm, st.est, st.calls ++ [BackendCall.single tx]⟩]
    simp only [List.length_cons, List.map_cons, progSeq, Prod.mk.injEq, and_true]
    have harg : i + (j + 1) + 1 = i + j + 1 + 1 := by omega
    rw [harg]
    simp

theorem runBatch_progress {respond : List Str → TermDict → Option Str}
    {single : Str → Str} {setOrder : List Str → List Str} {cbf : ℚ → Bool}
    (hcb : ∀ q, cbf q = false) {n i : Nat} (hn : 1 ≤ n)
    (bt : List Str) (st : LoopSt) (hbt : bt ≠ []) (hb12 : bt.length ≤ 12) :
    ∃ st', runBatch respond single setOrder (some cbf) n i bt st =
        (st', none) ∧
      ∃ ms, st'.progress = st.progress ++ ms ∧ ms ≠ [] ∧
        (∀ v ∈ ms, 0 ≤ v ∧ v ≤ 1) ∧
        (n ≤ i + bt.length → ms.getLast? = some 1) := by
  rcases hr : respond bt st.est with _ | reply
  · simp only [runBatch, hr]
    rw [fallbackLoop_spec hcb bt 0 _]
    refine ⟨_, rfl, progSeq n (i + 0 + 1) bt.length, by simp, ?_, ?_, ?_⟩
    · cases bt with
      | nil => exact absurd rfl hbt
      | cons c r =>
        rw [List.length_cons, progSeq]
        simp
    · exact progSeq_bounds n bt.length (i + 0 + 1)
    · intro hle
      rw [progSeq_getLast n bt.length (i + 0 + 1)
        (by cases bt with | nil => exact absurd rfl hbt | cons c r => simp)]
      have harg : i + 0 + 1 + bt.length - 1 = i + bt.length := by omega
      rw [harg]
      have hge : (1 : ℚ) ≤ ((i + bt.length : Nat) : ℚ) / (n : ℚ) := by
        rw [le_div_iff₀ (by positivity)]
        rw [one_mul]
        exact_mod_cast Nat.cast_le.mpr hle
      rw [min_eq_left hge]
  · simp only [runBatch, hr, hcb, Bool.false_eq_true, if_false]
    refine ⟨_, rfl, [min 1 (((i + 12 : Nat) : ℚ) / (n : ℚ))], ?_, by simp, ?_, ?_⟩
    · split
      · split
        · rfl
        · rfl
      · rfl
    · intro v hv
      rw [List.mem_singleton] at hv
      subst hv
      constructor
      · apply le_min
        · norm_num
        · positivity
      · exact min_le_left _ _
    · intro hle
      rw [List.getLast?_singleton]
      have h12 : n ≤ i + 12 := by omega
      have hge : (1 : ℚ) ≤ ((i + 12 : Nat) : ℚ) / (n : ℚ) := by
        rw [le_div_iff₀ (by positivity)]
        rw [one_mul]
        exact_mod_cast Nat.cast_le.mpr h12
      rw [min_eq_left hge]

/-- The last chunk of the list starting at offset `i` ends at or past
item `n`. -/
def lastReach (n : Nat) : Nat → List (List Str) → Prop
  | _, [] => False
  | i, [bt] => bt ≠ [] ∧ n ≤ i + bt.length
  | i, _ :: b :: rest => lastReach n (i + 12) (b :: rest)

theorem chunksAux_mem : ∀ (f : Nat) (l : List Str),
    ∀ bt ∈ chunksAux f l, bt ≠ [] ∧ bt.length ≤ 12 := by
  intro f
  induction f with
  | zero => intro l bt hbt; simp [chunksAux] at hbt
  | succ g ih =>
    intro l bt hbt
    match l with
    | [] => simp [chunksAux] at hbt
    | c :: r =>
      rw [show chunksAux (g + 1) (c :: r) =
          (c :: r).take 12 :: chunksAux g ((c :: r).drop 12) from rfl,
        List.mem_cons] at hbt
      rcases hbt with hbt | hbt
      · subst hbt
        refine ⟨by simp, ?_⟩
        rw [List.length_take]
        omega
      · exact ih _ bt hbt

theorem chunksAux_lastReach {n : Nat} : ∀ (f : Nat) (rem : List Str)
    (i : Nat), rem ≠ [] → rem.length ≤ f → n ≤ i + rem.length →
    lastReach n i (chunksAux f rem) := by
  intro f
  induction f with
  | zero =>
    intro rem i hne hlen _
    cases rem with
    | nil => exact absurd rfl hne
    | cons c r => simp at hlen
  | succ g ih =>
    intro rem i hne hlen hcov
    match rem with
    | [] => exact absurd rfl hne
    | c :: r =>
      rw [show chunksAux (g + 1) (c :: r) =
        (c :: r).take 12 :: chunksAux g ((c :: r).drop 12) from rfl]
      by_cases hl12 : (c :: r).length ≤ 12
      · rw [List.drop_eq_nil_iff.mpr hl12,
          show chunksAux g ([] : List Str) = [] from by
            cases g with | zero => rfl | succ g2 => rfl]
        show ((c :: r).take 12 ≠ [] ∧ n ≤ i + ((c :: r).take 12).length)
        constructor
        · simp
        · rw [List.length_take]
          omega
      · push_neg at hl12
        have hdlen : ((c :: r).drop 12).length = (c :: r).length - 12 := by
          simp
        have hdne : (c :: r).drop 12 ≠ [] := by
          intro h
          have hcon := List.drop_eq_nil_iff.mp h
          omega
        have hg1 : 1 ≤ g := by omega
        have hrest : chunksAux g ((c :: r).drop 12) ≠ [] :=
          chunksAux_ne_nil hdne hg1
        have h1 : ((c :: r).drop 12).length ≤ g := by omega
        have h2 : n ≤ i + 12 + ((c :: r).drop 12).length := by omega
        rcases hch : chunksAux g ((c :: r).drop 12) with _ | ⟨b, rest⟩
        · exact absurd hch hrest
        · show lastReach n (i + 12) (b :: rest)
          rw [← hch]
          exact ih ((c :: r).drop 12) (i + 12) hdne h1 h2

theorem loopBatches_progress {respond : List Str → TermDict → Option Str}
    {single : Str → Str} {setOrder : List Str → List Str} {cbf : ℚ → Bool}
    (hcb : ∀ q, cbf q = false) {n : Nat} (hn : 1 ≤ n) :
    ∀ (chunks : List (List Str)) (i : Nat) (st : LoopSt),
    (∀ bt ∈ chunks, bt ≠ [] ∧ bt.length ≤ 12) →
    ∃ st' ms,
      loopBatches respond single setOrder (some cbf) n chunks i st =
        (st', none) ∧
      st'.progress = st.progress ++ ms ∧
      (∀ v ∈ ms, 0 ≤ v ∧ v ≤ 1) ∧
      (lastReach n i chunks → ms.getLast? = some 1) := by
  intro chunks
  induction chunks with
  | nil =>
    intro i st _
    refine ⟨st, [], by rw [loopBatches], by simp, by simp, fun h => ?_⟩
    exact False.elim h
  | cons bt rest ih =>
    intro i st hmem
    obtain ⟨hbtne, hbt12⟩ := hmem bt (by simp)
    obtain ⟨st1, hrb, ms1, hprog1, hms1ne, hb1, hlast1⟩ :=
      @runBatch_progress respond single setOrder cbf hcb n i hn bt st hbtne
        hbt12
    obtain ⟨st2, ms2, hloop2, hprog2, hb2, hlast2⟩ :=
      ih (i + 12) st1 (fun b hb => hmem b (List.mem_cons_of_mem bt hb))
    refine ⟨st2, ms1 ++ ms2, ?_, ?_, ?_, ?_⟩
    · simp only [loopBatches, hrb]
      exact hloop2
    · rw [hprog2, hprog1, List.append_assoc]
    · intro v hv
      rcases List.mem_append.mp hv with hv | hv
      · exact hb1 v hv
      · exact hb2 v hv
    · intro hreach
      cases rest with
      | nil =>
        have hr : bt ≠ [] ∧ n ≤ i + bt.length := hreach
        have hst : (st1, (none : Option PyErr)) = (st2, none) := by
          rw [← hloop2, loopBatches]
        have hst2 : st1 = st2 := congrArg Prod.fst hst
        have hms2 : ms2 = [] := by
          have h := hprog2
          rw [← hst2] at h
          have h2 : st1.progress ++ [] = st1.progress ++ ms2 := by
            rw [List.append_nil]
            exact h
          exact (List.append_cancel_left h2).symm
        rw [hms2, List.append_nil]
        exact hlast1 hr.2
      | cons b2 r2 =>
        have hr : lastReach n (i + 12) (b2 :: r2) := hreach
        have hl2 := hlast2 hr
        have hms2ne : ms2 ≠ [] := by
          intro h
          rw [h] at hl2
          simp at hl2
        rw [List.getLast?_append_of_ne_nil _ hms2ne]
        exact hl2

/-- **C6, counterexample**: an exception raised by the progress callback
does abort the translation — with a single text, a successful batch reply
and an always-raising callback, `translate_with_openai` re-raises the
callback's exception (wrapped as the generic translation error) instead
of returning the translations. -/
theorem C6_counterexample :
    (translate_with_openai (fun _ _ => some "1. X".data) id dedupStr
        ["Hi".data] "Chinese".data "sk-1".data "gpt-5-mini".data
        (some (fun _ => true)) none).result =
      Except.error (PyErr.translationError msgUnexpected) := by decide

/-- **C6** (amended): when the progress callback never raises and
validation passes with at least one non-blank text, every reported
progress value lies in `[0, 1]` and the final reported value is exactly
`1`; a callback exception, however, aborts the translation (see the
counterexample) rather than being swallowed. -/
theorem C6_amended (respond : List Str → TermDict → Option Str)
    (single : Str → Str) (setOrder : List Str → List Str)
    (texts : List Str) (lang key model : Str) (cbf : ℚ → Bool)
    (cm0 : Option ContextManager)
    (hcb : ∀ q, cbf q = false)
    (hm : model = "gpt-5".data ∨ model = "gpt-5-mini".data)
    (hk : (pyStrip key).isEmpty = false)
    (hl : (pyStrip lang).isEmpty = false)
    (hne : (nonEmptyOf texts).isEmpty = false) :
    (∀ v ∈ (translate_with_openai respond single setOrder texts lang key
      model (some cbf) cm0).progressValues, 0 ≤ v ∧ v ≤ 1) ∧
    (translate_with_openai respond single setOrder texts lang key model
      (some cbf) cm0).progressValues.getLast? = some 1 := by
  have htexts : texts.isEmpty = false := by
    cases texts with
    | nil => exact absurd hne (by decide)
    | cons a l => rfl
  have hnlist : nonEmptyOf texts ≠ [] := by
    intro h
    rw [h] at hne
    simp at hne
  have hn : 1 ≤ (nonEmptyOf texts).length :=
    List.length_pos.mpr hnlist
  obtain ⟨st', ms, hloop, hprog, hbounds, hlast⟩ :=
    @loopBatches_progress respond single setOrder cbf hcb
      (nonEmptyOf texts).length hn (chunksOf (nonEmptyOf texts)) 0
      ⟨[], [], cm0, initEst cm0, []⟩
      (chunksAux_mem (nonEmptyOf texts).length (nonEmptyOf texts))
  have hreach : lastReach (nonEmptyOf texts).length 0
      (chunksOf (nonEmptyOf texts)) :=
    chunksAux_lastReach (nonEmptyOf texts).length (nonEmptyOf texts) 0
      hnlist (le_refl _) (by omega)
  have hms := hlast hreach
  simp only [translate_with_openai]
  rw [if_neg (not_not_intro hm), if_neg (by simp [hk]), if_neg (by simp [hl]),
    if_neg (by simp [htexts]), if_neg (by simp [hne])]
  simp only [hloop]
  rcases hrec : reconstruct texts.length (positionsOf texts)
      st'.translations with e | res
  · simp only [hrec]
    rw [hprog, List.nil_append]
    exact ⟨hbounds, hms⟩
  · simp only [hrec]
    rw [hprog, List.nil_append]
    exact ⟨hbounds, hms⟩

/-- Witness for C6 (amended): one text, non-raising callback — the single
reported progress value is `1`. -/
theorem C6_amended_witness :
    (pyStrip "sk-1".data).isEmpty = false ∧
    (translate_with_openai (fun _ _ => some "1. X".data) id dedupStr
      ["Hi".data] "Chinese".data "sk-1".data "gpt-5-mini".data
      (some (fun _ => false)) none).progressValues.getLast? = some 1 :=
  ⟨by decide, (C6_amended (fun _ _ => some "1. X".data) id dedupStr
    ["Hi".data] "Chinese".data "sk-1".data "gpt-5-mini".data (fun _ => false)
    none (fun _ => rfl) (Or.inr rfl) (by decide) (by decide) (by decide)).2⟩

/-! ## Claim C3 -/

/-- 25 non-blank texts: three batches of 12, 12 and 1. -/
def c3Texts : List Str :=
  ["John is here".data] ++ List.replicate 11 "x".data ++
    ["John came".data] ++ List.replicate 11 "x".data ++ ["end".data]

/-- A backend that translates `John` as `約` in the first batch and as
`翰` in the second. -/
def c3Respond : List Str → TermDict → Option Str := fun bt _ =>
  if bt.getD 0 [] = "John is here".data then some "1. 約".data
  else if bt.getD 0 [] = "John came".data then some "1. 翰".data
  else some "1. ok".data

set_option maxRecDepth 8000 in
/-- **C3, counterexample**: the established terms are fetched from the
store once, before the loop, and later prompts use a local mirror that
`dict.update` overwrites — so the third batch's prompt carries
`John → 翰` (the second batch's mining) while the store's established
terms still say `John → 約` (first translation kept, confidence raised):
the prompt for batch 3 does not reflect the store after batch 2. -/
theorem C3_counterexample :
    (translate_with_openai c3Respond id dedupStr c3Texts "Chinese".data
        "sk-1".data "gpt-5-mini".data none
        (some ContextManager.empty)).calls.getD 2 (BackendCall.single []) =
      BackendCall.batch ["end".data] [("John".data, "翰".data)] ∧
    (translate_with_openai c3Respond id dedupStr c3Texts "Chinese".data
        "sk-1".data "gpt-5-mini".data none
        (some ContextManager.empty)).finalContext.map
        (fun cm => get_established_terms cm 1) =
      some [("John".data, "約".data)] ∧
    "翰".data ≠ "約".data := by
  refine ⟨by decide, by decide, by decide⟩

/-- **C3** (amended): the store's established terms are fetched once,
before the loop — the first batch request carries exactly
`get_established_terms(cm, 1)` of the supplied store; after a successful
batch whose mined term mappings are non-empty, the mappings are folded
into the store via `update_terms` and into the local prompt mirror via
`dict.update` — the mirror (which later prompts use) overwrites earlier
translations, so it need not match the store's established terms (see
the counterexample); with no mined terms, neither store nor mirror
changes. -/
theorem C3_amended (respond : List Str → TermDict → Option Str)
    (single : Str → Str) (setOrder : List Str → List Str)
    (texts : List Str) (lang key model : Str) (cb : Option (ℚ → Bool))
    (c : ContextManager) (bt0 : List Str) (rest : List (List Str))
    (hm : model = "gpt-5".data ∨ model = "gpt-5-mini".data)
    (hk : (pyStrip key).isEmpty = false)
    (hl : (pyStrip lang).isEmpty = false)
    (hchunks : chunksOf (nonEmptyOf texts) = bt0 :: rest) :
    (translate_with_openai respond single setOrder texts lang key model cb
        (some c)).calls.head? =
      some (BackendCall.batch bt0 (get_established_terms c 1)) ∧
    (∀ (n i : Nat) (bt : List Str) (st : LoopSt) (rep : Str)
      (c2 : ContextManager),
      respond bt st.est = some rep → st.cm = some c2 →
      (extract_terms_from_translation_pair setOrder bt
          (parse_batch_response (pyStrip rep) bt.length) ≠ [] →
        (runBatch respond single setOrder none n i bt st).1.cm =
          some (update_terms c2 (extract_terms_from_translation_pair setOrder
            bt (parse_batch_response (pyStrip rep) bt.length))) ∧
        (runBatch respond single setOrder none n i bt st).1.est =
          dictUpdate st.est (extract_terms_from_translation_pair setOrder bt
            (parse_batch_response (pyStrip rep) bt.length))) ∧
      (extract_terms_from_translation_pair setOrder bt
          (parse_batch_response (pyStrip rep) bt.length) = [] →
        (runBatch respond single setOrder none n i bt st).1.cm = st.cm ∧
        (runBatch respond single setOrder none n i bt st).1.est = st.est)) := by
  constructor
  · have hne : (nonEmptyOf texts).isEmpty = false := by
      rcases hx : nonEmptyOf texts with _ | ⟨t, ts⟩
      · rw [hx] at hchunks
        rw [show chunksOf ([] : List Str) = [] from rfl] at hchunks
        exact absurd hchunks (by simp)
      · rfl
    have htexts : texts.isEmpty = false := by
      cases texts with
      | nil => exact absurd hne (by decide)
      | cons a l => rfl
    simp only [translate_with_openai]
    rw [if_neg (not_not_intro hm), if_neg (by simp [hk]),
      if_neg (by simp [hl]), if_neg (by simp [htexts]),
      if_neg (by simp [hne]), hchunks]
    rcases hrb : runBatch respond single setOrder cb
        (nonEmptyOf texts).length 0 bt0
        ⟨[], [], some c, initEst (some c), []⟩ with ⟨st1, oe1⟩
    have hpre1 := @runBatch_calls respond single setOrder cb
      (nonEmptyOf texts).length 0 bt0 ⟨[], [], some c, initEst (some c), []⟩
    rw [hrb] at hpre1
    simp only [List.nil_append] at hpre1
    cases oe1 with
    | some e =>
      simp only [loopBatches, hrb]
      obtain ⟨t, ht⟩ := hpre1
      show st1.calls.head? = _
      rw [← ht]
      rfl
    | none =>
      simp only [loopBatches, hrb]
      rcases hp2 : loopBatches respond single setOrder cb
          (nonEmptyOf texts).length rest (0 + 12) st1 with ⟨stf, oe2⟩
      have hpre2 := (@loopBatches_calls respond single setOrder cb
        (nonEmptyOf texts).length rest (0 + 12) st1).1
      rw [hp2] at hpre2
      have hpre := List.IsPrefix.trans hpre1 hpre2
      obtain ⟨t, ht⟩ := hpre
      cases oe2 with
      | some e2 =>
        simp only [hp2]
        show stf.calls.head? = _
        rw [← ht]
        rfl
      | none =>
        simp only [hp2]
        rcases hrec : reconstruct texts.length (positionsOf texts)
            stf.translations with e3 | res
        · simp only [hrec]
          show stf.calls.head? = _
          rw [← ht]
          rfl
        · simp only [hrec]
          show stf.calls.head? = _
          rw [← ht]
          rfl
  · intro n i bt st rep c2 hr hcm
    have hbtr0 : parse_batch_response (pyStrip rep) bt.length = [] →
        extract_terms_from_translation_pair setOrder bt
          (parse_batch_response (pyStrip rep) bt.length) = [] := by
      intro hz
      rw [hz]
      rw [extract_terms_from_translation_pair]
      cases bt with
      | nil => rfl
      | cons b bs => rw [if_pos (by simp)]
    constructor
    · intro hmined
      have hbtrne : ¬(parse_batch_response (pyStrip rep) bt.length).isEmpty
          = true := by
        intro hz
        rw [List.isEmpty_iff] at hz
        exact hmined (hbtr0 hz)
      simp only [runBatch, hr]
      rw [if_pos ⟨by rw [hcm]; rfl, hbtrne⟩,
        if_neg (by
          intro hz
          rw [List.isEmpty_iff] at hz
          exact hmined hz)]
      constructor
      · show (st.cm.map fun c3 => update_terms c3 _) = _
        rw [hcm]
        rfl
      · rfl
    · intro hmined
      simp only [runBatch, hr]
      by_cases hc1 : (st.cm.isSome = true ∧
          ¬(parse_batch_response (pyStrip rep) bt.length).isEmpty = true)
      · rw [if_pos hc1, if_pos (by rw [List.isEmpty_iff]; exact hmined)]
        exact ⟨rfl, rfl⟩
      · rw [if_neg hc1]
        exact ⟨rfl, rfl⟩

/-- Witness for C3 (amended): a one-batch run whose single backend call
carries the empty established-terms dictionary of a fresh store. -/
theorem C3_amended_witness :
    chunksOf (nonEmptyOf ["Hi".data]) = ["Hi".data] :: [] ∧
    (translate_with_openai (fun _ _ => some "1. X".data) id dedupStr
        ["Hi".data] "Chinese".data "sk-1".data "gpt-5-mini".data none
        (some ContextManager.empty)).calls.head? =
      some (BackendCall.batch ["Hi".data]
        (get_established_terms ContextManager.empty 1)) :=
  ⟨by decide, (C3_amended (fun _ _ => some "1. X".data) id dedupStr
    ["Hi".data] "Chinese".data "sk-1".data "gpt-5-mini".data none
    ContextManager.empty ["Hi".data] [] (Or.inr rfl) (by decide) (by decide)
    (by decide)).1⟩

/-! ## Claim C2 -/

theorem runBatch_translations {respond : List Str → TermDict → Option Str}
    {single : Str → Str} {setOrder : List Str → List Str} {ftr : Str → Str}
    {n i : Nat} (bt : List Str) (st : LoopSt) (rep : Str)
    (hr : respond bt st.est = some rep)
    (hparse : parse_batch_response (pyStrip rep) bt.length = bt.map ftr) :
    ∃ st', runBatch respond single setOrder none n i bt st = (st', none) ∧
      st'.translations = st.translations ++ bt.map ftr := by
  simp only [runBatch, hr]
  refine ⟨_, rfl, ?_⟩
  split
  · split
    · show st.translations ++ parse_batch_response (pyStrip rep) bt.length = _
      rw [hparse]
    · show st.translations ++ parse_batch_response (pyStrip rep) bt.length = _
      rw [hparse]
  · show st.translations ++ parse_batch_response (pyStrip rep) bt.length = _
    rw [hparse]

theorem loopBatches_translations {respond : List Str → TermDict → Option Str}
    {single : Str → Str} {setOrder : List Str → List Str} {ftr : Str → Str}
    {n : Nat} :
    ∀ (chunks : List (List Str)),
    (∀ bt ∈ chunks, ∀ d, ∃ rep, respond bt d = some rep ∧
      parse_batch_response (pyStrip rep) bt.length = bt.map ftr) →
    ∀ (i : Nat) (st : LoopSt), ∃ st',
      loopBatches respond single setOrder none n chunks i st = (st', none) ∧
      st'.translations = st.translations ++ chunks.flatten.map ftr := by
  intro chunks
  induction chunks with
  | nil =>
    intro _ i st
    exact ⟨st, by rw [loopBatches], by simp⟩
  | cons bt rest ih =>
    intro hresp i st
    obtain ⟨rep, hr, hparse⟩ := hresp bt (by simp) st.est
    obtain ⟨st1, hrb, htr1⟩ :=
      @runBatch_translations respond single setOrder ftr n i bt st rep hr
        hparse
    obtain ⟨st2, hloop, htr2⟩ :=
      ih (fun b hb d => hresp b (List.mem_cons_of_mem bt hb) d) (i + 12) st1
    refine ⟨st2, ?_, ?_⟩
    · simp only [loopBatches, hrb]
      exact hloop
    · rw [htr2, htr1]
      simp [List.append_assoc]

theorem chunksAux_flatten : ∀ (f : Nat) (l : List Str), l.length ≤ f →
    (chunksAux f l).flatten = l := by
  intro f
  induction f with
  | zero =>
    intro l h
    cases l with
    | nil => rfl
    | cons c r => simp at h
  | succ g ih =>
    intro l h
    cases l with
    | nil => rfl
    | cons c r =>
      rw [show chunksAux (g + 1) (c :: r) =
        (c :: r).take 12 :: chunksAux g ((c :: r).drop 12) from rfl]
      rw [List.flatten_cons, ih ((c :: r).drop 12) (by
        simp only [List.length_drop, List.length_cons] at h ⊢
        omega)]
      exact List.take_append_drop 12 (c :: r)

theorem reconstructGo_scatter (ftr : Str → Str) :
    ∀ (rest pre : List Str) (m : Nat), rest.length ≤ m →
    reconstructGo
      (((List.enumFrom pre.length rest).filter
          (fun p => !(pyStrip p.2).isEmpty)).map
        (fun p => (p.1, ftr (pyStrip p.2))))
      (pre ++ List.replicate m []) =
      some (pre ++ rest.map
          (fun t => if (pyStrip t).isEmpty = true then []
            else ftr (pyStrip t)) ++
        List.replicate (m - rest.length) []) := by
  intro rest
  induction rest with
  | nil =>
    intro pre m _
    simp [reconstructGo]
  | cons t rest ih =>
    intro pre m h
    have hm1 : 1 ≤ m := le_trans (by simp) h
    rw [List.enumFrom_cons]
    have hrepl : List.replicate m ([] : Str) =
        [] :: List.replicate (m - 1) [] := by
      cases m with
      | zero => omega
      | succ m2 => rw [List.replicate_succ]; simp
    have hcnt : m - 1 - rest.length = m - (t :: rest).length := by
      rw [List.length_cons]
      omega
    by_cases hblank : (pyStrip t).isEmpty = true
    · rw [List.filter_cons_of_neg (by simp [hblank])]
      rw [hrepl,
        show pre ++ [] :: List.replicate (m - 1) ([] : Str) =
          (pre ++ [[]]) ++ List.replicate (m - 1) [] from by simp]
      have hrec := ih (pre ++ [[]]) (m - 1) (by
        rw [List.length_cons] at h
        omega)
      rw [show (pre ++ [[]] : List Str).length = pre.length + 1 from by simp]
        at hrec
      rw [hrec]
      simp only [List.map_cons]
      rw [if_pos hblank, hcnt]
      simp
    · rw [List.filter_cons_of_pos (by simp [hblank]), List.map_cons]
      have hset : setAt (pre ++ List.replicate m []) pre.length
          (ftr (pyStrip t)) =
          some ((pre ++ [ftr (pyStrip t)]) ++ List.replicate (m - 1) []) := by
        rw [setAt, if_pos (by simp; omega)]
        rw [List.set_append_right _ _ (le_refl _), Nat.sub_self]
        cases m with
        | zero => omega
        | succ m2 =>
          rw [List.replicate_succ, List.set_cons_zero]
          simp
      rw [reconstructGo]
      simp only [hset]
      have hrec := ih (pre ++ [ftr (pyStrip t)]) (m - 1) (by
        rw [List.length_cons] at h
        omega)
      rw [show (pre ++ [ftr (pyStrip t)] : List Str).length = pre.length + 1
        from by simp] at hrec
      rw [hrec]
      simp only [List.map_cons]
      rw [if_neg hblank, hcnt]
      simp

theorem reconstruct_spec (ftr : Str → Str) (texts : List Str) :
    reconstruct texts.length (positionsOf texts)
      ((nonEmptyOf texts).map ftr) =
      Except.ok (texts.map
        (fun t => if (pyStrip t).isEmpty = true then []
          else ftr (pyStrip t))) := by
  rw [reconstruct]
  have hlen : (positionsOf texts).length =
      ((nonEmptyOf texts).map ftr).length := by
    simp [positionsOf, nonEmptyOf]
  rw [if_neg (by omega)]
  have hzip : (positionsOf texts).zip ((nonEmptyOf texts).map ftr) =
      (nonEmptyPairs texts).map (fun p => (p.1, ftr (pyStrip p.2))) := by
    rw [positionsOf, nonEmptyOf, List.map_map]
    exact List.zip_map' Prod.fst (fun p => ftr (pyStrip p.2))
      (nonEmptyPairs texts)
  rw [hzip]
  have hgo := reconstructGo_scatter ftr texts [] texts.length (le_refl _)
  simp only [List.length_nil, List.nil_append, Nat.sub_self,
    List.replicate_zero, List.append_nil] at hgo
  rw [nonEmptyPairs, List.enum_eq_enumFrom, hgo]

theorem blank_map_replicate (ftr : Str → Str) :
    ∀ (texts : List Str) (k : Nat),
    (List.enumFrom k texts).filter (fun p => !(pyStrip p.2).isEmpty) = [] →
    texts.map (fun t => if (pyStrip t).isEmpty = true then []
      else ftr (pyStrip t)) = List.replicate texts.length [] := by
  intro texts
  induction texts with
  | nil => intro k _; rfl
  | cons a l ih =>
    intro k h
    rw [List.enumFrom_cons] at h
    simp only [List.filter_cons] at h
    by_cases hpa : (pyStrip a).isEmpty = true
    · rw [if_neg (by simp [hpa])] at h
      simp only [List.map_cons, List.length_cons, List.replicate_succ]
      rw [ih (k + 1) h, if_pos hpa]
    · rw [if_pos (by simp [hpa])] at h
      exact absurd h (by simp)

/-- **C2**: when validation passes and every batch request succeeds with a
reply that parses to the itemwise translations (`ftr` of each stripped
batch item), `translate_with_openai` returns a list of the same length as
the input in which every blank or whitespace-only position is the empty
string and every other position `i` holds the translation of the stripped
`texts[i]` — interleaved blanks never shift the translated items. -/
theorem C2_positions_preserved (respond : List Str → TermDict → Option Str)
    (single : Str → Str) (setOrder : List Str → List Str)
    (texts : List Str) (lang key model : Str) (cm0 : Option ContextManager)
    (ftr : Str → Str)
    (hm : model = "gpt-5".data ∨ model = "gpt-5-mini".data)
    (hk : (pyStrip key).isEmpty = false)
    (hl : (pyStrip lang).isEmpty = false)
    (hresp : ∀ bt ∈ chunksOf (nonEmptyOf texts), ∀ d, ∃ rep,
      respond bt d = some rep ∧
      parse_batch_response (pyStrip rep) bt.length = bt.map ftr) :
    (translate_with_openai respond single setOrder texts lang key model none
        cm0).result =
      Except.ok (texts.map (fun t => if (pyStrip t).isEmpty = true then []
        else ftr (pyStrip t))) ∧
    (texts.map (fun t => if (pyStrip t).isEmpty = true then []
      else ftr (pyStrip t))).length = texts.length ∧
    (∀ i, i < texts.length → (pyStrip (texts.getD i [])).isEmpty = true →
      (texts.map (fun t => if (pyStrip t).isEmpty = true then []
        else ftr (pyStrip t))).getD i [] = []) ∧
    (∀ i, i < texts.length → (pyStrip (texts.getD i [])).isEmpty = false →
      (texts.map (fun t => if (pyStrip t).isEmpty = true then []
        else ftr (pyStrip t))).getD i [] =
        ftr (pyStrip (texts.getD i []))) := by
  refine ⟨?_, by simp, ?_, ?_⟩
  · simp only [translate_with_openai]
    rw [if_neg (not_not_intro hm), if_neg (by simp [hk]),
      if_neg (by simp [hl])]
    by_cases hempty : texts.isEmpty = true
    · rw [if_pos hempty]
      cases texts with
      | nil => rfl
      | cons a l => simp at hempty
    · rw [if_neg hempty]
      by_cases hne : (nonEmptyOf texts).isEmpty = true
      · rw [if_pos hne]
        show Except.ok (List.replicate texts.length []) = _
        have hnp : nonEmptyPairs texts = [] := by
          rw [List.isEmpty_iff] at hne
          rw [nonEmptyOf] at hne
          exact List.map_eq_nil_iff.mp hne
        rw [nonEmptyPairs, List.enum_eq_enumFrom] at hnp
        rw [blank_map_replicate ftr texts 0 hnp]
      · rw [if_neg hne]
        obtain ⟨st', hloop, htr⟩ :=
          @loopBatches_translations respond single setOrder ftr
            (nonEmptyOf texts).length (chunksOf (nonEmptyOf texts)) hresp 0
            ⟨[], [], cm0, initEst cm0, []⟩
        simp only [hloop]
        have htr2 : st'.translations = (nonEmptyOf texts).map ftr := by
          rw [htr]
          show [] ++ List.map ftr (chunksOf (nonEmptyOf texts)).flatten = _
          rw [List.nil_append, chunksOf,
            chunksAux_flatten (nonEmptyOf texts).length (nonEmptyOf texts)
              (le_refl _)]
        rw [htr2, reconstruct_spec]
  · intro i hi hblank
    have he : texts.getD i [] = texts[i] := by
      rw [List.getD_eq_getElem?_getD, List.getElem?_eq_getElem hi]
      rfl
    rw [he] at hblank
    rw [List.getD_eq_getElem?_getD, List.getElem?_map,
      List.getElem?_eq_getElem hi]
    show (if (pyStrip texts[i]).isEmpty = true then []
      else ftr (pyStrip texts[i])) = []
    rw [if_pos hblank]
  · intro i hi hblank
    have he : texts.getD i [] = texts[i] := by
      rw [List.getD_eq_getElem?_getD, List.getElem?_eq_getElem hi]
      rfl
    rw [he] at hblank ⊢
    rw [List.getD_eq_getElem?_getD, List.getElem?_map,
      List.getElem?_eq_getElem hi]
    show (if (pyStrip texts[i]).isEmpty = true then []
      else ftr (pyStrip texts[i])) = ftr (pyStrip texts[i])
    rw [if_neg (by simp [hblank])]

/-- Witness for C2: one real text between two blanks — the blanks stay
empty and the middle item is translated, with no shifting. -/
theorem C2_positions_preserved_witness :
    (translate_with_openai (fun _ _ => some "1. X".data) id dedupStr
        [[], "Hi".data, []] "Chinese".data "sk-1".data "gpt-5-mini".data
        none none).result =
      Except.ok ([[], "1. X".data, []]) ∧
    ([[], "Hi".data, []].map
      (fun t => if (pyStrip t).isEmpty = true then []
        else (fun _ => "1. X".data) (pyStrip t))).length = 3 := by
  have h := C2_positions_preserved (fun _ _ => some "1. X".data) id dedupStr
    [[], "Hi".data, []] "Chinese".data "sk-1".data "gpt-5-mini".data none
    (fun _ => "1. X".data) (Or.inr rfl) (by decide) (by decide)
    (by
      intro bt hbt d
      have hbtv : bt = ["Hi".data] := by
        have hc : chunksOf (nonEmptyOf [[], "Hi".data, []]) =
            [["Hi".data]] := by decide
        rw [hc] at hbt
        simpa using hbt
      subst hbtv
      exact ⟨"1. X".data, rfl, by decide⟩)
  refine ⟨?_, by decide⟩
  rw [h.1]
  rfl
